import Mathlib

/-!
Snake-go: a shallow embedding of `snake.go` and its verified properties

The development follows the single source file `snake.go`.

Modelling conventions.

* Go `int` values are modelled by `Int`.  All coordinates of the program are
  terminal cell indices and small offsets of them, so 64-bit wrap-around is
  outside the modelled range.
* A Go slice `[]Point` is modelled by `List Point`; in-place updates return the
  new list.  The built-in `copy(dst, src)` is `sliceCopy`, which has the
  memmove semantics of Go (the source is read as it was before the call).
* Code that can raise a run-time panic, or that contains the unbounded loop of
  `randomFood`, returns an `Outcome`: `ok a` for a normal result, `panic` for a
  run-time panic and `pending` when the supplied random draws were all used up
  and the loop has not left yet.
* The random generator is a list of raw draws.  `rand.Intn(n)` on raw draw `r`
  yields `r % n`, so exactly the values of `[0, n)` can be drawn; it panics for
  `n <= 0` as in the Go library.
* `make([]Point, 0, cap)` panics for a negative capacity and for a capacity
  above what the Go runtime can grant.  That limit belongs to the platform and
  the running process, not to the program, so `NewWall` and `mainInit` take it
  as the parameter `capLimit`; on a 64-bit platform it is at most
  `maxPointCap`.
* The colours of termbox are the constructors of `Attribute`.
* The game loop of `main` is a state machine on `Game`; `select` delivers a
  key event, another terminal event, or a tick.  A tick can only be delivered
  while the ticker has not been stopped.
-/

namespace SnakeGo

/-! ## Results of fallible code -/

/-- Result of running a piece of Go code on given random draws. -/
inductive Outcome (α : Type) where
  | ok (a : α)
  | panic
  | pending
  deriving DecidableEq, Repr

/-- Sequencing of fallible code. -/
def Outcome.bind {α β : Type} (o : Outcome α) (f : α → Outcome β) : Outcome β :=
  match o with
  | .ok a => f a
  | .panic => .panic
  | .pending => .pending

instance : Monad Outcome where
  pure := Outcome.ok
  bind := Outcome.bind

/-! ## termbox colours -/

/-- The termbox colour attributes the program uses. -/
inductive Attribute where
  | ColorDefault
  | ColorRed
  | ColorYellow
  | ColorBlue
  | ColorWhite
  deriving DecidableEq, Repr

/-- Colour of the food (`FoodColor`). -/
def FoodColor : Attribute := .ColorYellow

/-- Colour of the wall (`WallColor`). -/
def WallColor : Attribute := .ColorBlue

/-- Colour of the snake (`SnakeColor`). -/
def SnakeColor : Attribute := .ColorWhite

/-! ## Geometry -/

/-- Grid point (`type Point struct`). -/
structure Point where
  x : Int
  y : Int
  deriving DecidableEq, Repr

/-- Displacement (`type Vector Point`). -/
structure Vector where
  x : Int
  y : Int
  deriving DecidableEq, Repr

/-- Translation of a point (`func (p *Point) Transform(v Vector)`); the result
is the updated receiver. -/
def Point.Transform (p : Point) (v : Vector) : Point :=
  { x := p.x + v.x, y := p.y + v.y }

/-- Point comparison (`func (p *Point) Equal(point Point) bool`). -/
def Point.Equal (p point : Point) : Bool :=
  p.x == point.x && p.y == point.y

/-- Direction `Up`. -/
def Up : Vector := ⟨0, -1⟩

/-- Direction `Down`. -/
def Down : Vector := ⟨0, 1⟩

/-- Direction `Left`. -/
def Left : Vector := ⟨-1, 0⟩

/-- Direction `Right`. -/
def Right : Vector := ⟨1, 0⟩

/-- Zero test (`func VcIsZero(p Vector) bool`). -/
def VcIsZero (p : Vector) : Bool :=
  p.x == 0 && p.y == 0

/-- Vector sum (`func VcAdd(v0, v1 Vector) Vector`). -/
def VcAdd (v0 v1 : Vector) : Vector :=
  { x := v0.x + v1.x, y := v0.y + v1.y }

/-- Vector comparison as written in the source
(`return v0.x == v1.y && v0.y == v1.y`). -/
def VcEqual (v0 v1 : Vector) : Bool :=
  v0.x == v1.y && v0.y == v1.y

/-! ## Slices and loops -/

/-- The built-in `copy(dst, src)`: the first `min (len dst) (len src)` cells of
`dst` receive the corresponding cells of `src`; the result is the new `dst`. -/
def sliceCopy (dst src : List Point) : List Point :=
  src.take dst.length ++ dst.drop src.length

/-- The values taken by `i` in `for i := lo; i <= hi; i++`. -/
def loopRange (lo hi : Int) : List Int :=
  (List.range (hi + 1 - lo).toNat).map (fun (k : Nat) => lo + (k : Int))

/-- Membership scan (`func intersect(p Point, ps []Point) bool`). -/
def intersect (p : Point) (ps : List Point) : Bool :=
  match ps with
  | [] => false
  | exp :: rest => if p.Equal exp then true else intersect p rest

/-! ## Wall -/

/-- The wall (`type Wall struct`). -/
structure Wall where
  points : List Point
  color : Attribute
  P1 : Point
  P2 : Point
  deriving DecidableEq, Repr

/-- The points appended by the nested loops of `NewWall`, in order. -/
def wallLoop (p1 p2 : Point) : List Point :=
  (loopRange p1.x p2.x).foldl
    (fun points i =>
      (loopRange p1.y p2.y).foldl
        (fun points j =>
          if i = p1.x ∨ i = p2.x ∨ j = p1.y ∨ j = p2.y then points ++ [Point.mk i j]
          else points)
        points)
    []

/-- Upper bound of the capacity the Go runtime grants to `make([]Point, 0, cap)`
on a 64-bit platform: a slice takes at most `2^48` bytes and a `Point` takes 16
bytes.  A process that is short of memory grants less. -/
def maxPointCap : Int := 2 ^ 44

/-- Wall constructor (`func NewWall(p1, p2 Point) *Wall`).  The call
`make([]Point, 0, (p2.x+p2.y)*2)` panics when the capacity is negative or above
`capLimit`, the largest capacity the runtime grants. -/
def NewWall (capLimit : Int) (p1 p2 : Point) : Outcome Wall :=
  if (p2.x + p2.y) * 2 < 0 ∨ capLimit < (p2.x + p2.y) * 2 then .panic
  else .ok { points := wallLoop p1 p2, color := WallColor, P1 := p1, P2 := p2 }

/-- Accessor `func (p *Wall) Points() []Point`. -/
def Wall.Points (p : Wall) : List Point := p.points

/-! ## Food -/

/-- The food (`type Food struct`). -/
structure Food where
  point : Point
  color : Attribute
  deriving DecidableEq, Repr

/-- Food constructor (`func NewFood(x, y int) *Food`). -/
def NewFood (x y : Int) : Food :=
  { point := ⟨x, y⟩, color := FoodColor }

/-- Accessor `func (p *Food) Points() []Point`. -/
def Food.Points (p : Food) : List Point := [p.point]

/-! ## Snake -/

/-- The snake (`type Snake struct`). -/
structure Snake where
  color : Attribute
  points : List Point
  vector : Vector
  deriving DecidableEq, Repr

/-- Snake constructor (`func NewSnake(x, y int) *Snake`). -/
def NewSnake (x y : Int) : Snake :=
  { color := .ColorWhite, points := [⟨x, y⟩], vector := Right }

/-- Accessor `func (p *Snake) Points() []Point`. -/
def Snake.Points (p : Snake) : List Point := p.points

/-- Head of the snake (`func (p *Snake) Head() Point`); indexing an empty slice
panics. -/
def Snake.Head (p : Snake) : Outcome Point :=
  match p.points with
  | [] => .panic
  | h :: _ => .ok h

/-- Direction update (`func (p *Snake) SetVector(v Vector)`). -/
def Snake.SetVector (p : Snake) (v : Vector) : Snake :=
  if !VcIsZero v && !VcIsZero (VcAdd p.vector v) then { p with vector := v } else p

/-- One move (`func (p *Snake) Step()`): `copy(p.points[1:], p.points[:len-1])`
followed by `p.points[0].Transform(p.vector)`.  The slice expression
`p.points[1:]` panics on an empty slice. -/
def Snake.Step (p : Snake) : Outcome Snake :=
  if p.points.length < 1 then .panic
  else
    let points :=
      p.points.take 1 ++ sliceCopy (p.points.drop 1) (p.points.take (p.points.length - 1))
    match points with
    | [] => .panic
    | h :: t => .ok { p with points := h.Transform p.vector :: t }

/-- One growing move (`func (p *Snake) Eat()`). -/
def Snake.Eat (p : Snake) : Outcome Snake :=
  match p.points with
  | [] => .panic
  | h :: _ =>
    let point := h.Transform p.vector
    let points := p.points ++ [Point.mk 0 0]
    let points :=
      points.take 1 ++ sliceCopy (points.drop 1) (points.take (points.length - 1))
    .ok { p with points := points.set 0 point }

/-! ## Scores -/

/-- The score counter (`type Scores struct`). -/
structure Scores where
  num : Int
  cursor : Point
  color : Attribute
  deriving DecidableEq, Repr

/-- Score constructor (`func NewScores(x, y int) *Scores`). -/
def NewScores (x y : Int) : Scores :=
  { num := 0, cursor := ⟨x, y⟩, color := .ColorWhite }

/-- Increment (`func (p *Scores) Inc()`). -/
def Scores.Inc (p : Scores) : Scores :=
  { p with num := p.num + 1 }

/-! ## Food placement -/

/-- The library call `rand.Intn(n)` on raw draw `r`. -/
def Intn (n : Int) (r : Nat) : Outcome Int :=
  if n ≤ 0 then .panic else .ok ((r : Int) % n)

/-- Food placement (`func randomFood(p1, p2 Point, excludes []Point) *Food`).
Each element of `draws` holds the two raw draws of one loop iteration. -/
def randomFood (p1 p2 : Point) (excludes : List Point) :
    List (Nat × Nat) → Outcome Food
  | [] => .pending
  | (r1, r2) :: rest =>
    match Intn (p2.x - p1.x - 1) r1 with
    | .panic => .panic
    | .pending => .pending
    | .ok a =>
      match Intn (p2.y - p1.y - 1) r2 with
      | .panic => .panic
      | .pending => .pending
      | .ok b =>
        let x := a + p1.x + 1
        let y := b + p1.y + 1
        if !intersect ⟨x, y⟩ excludes then .ok (NewFood x y)
        else randomFood p1 p2 excludes rest

/-- The test `func canEat(s *Snake, f *Food) bool`. -/
def canEat (s : Snake) (f : Food) : Outcome Bool :=
  match s.Head with
  | .ok p => .ok (f.point.Equal (p.Transform s.vector))
  | .panic => .panic
  | .pending => .pending

/-! ## The game loop of `main` -/

/-- The variables of `main` that the loop reads and writes, with the state of
the ticker and of the loop itself. -/
structure Game where
  scores : Scores
  wall : Wall
  snake : Snake
  food : Food
  vector : Vector
  tickerStopped : Bool
  exited : Bool
  deriving DecidableEq, Repr

/-- Keys of a termbox key event, as far as the loop tells them apart. -/
inductive Key where
  | Esc
  | ArrowUp
  | ArrowDown
  | ArrowLeft
  | ArrowRight
  | Other (code : Nat)
  deriving DecidableEq, Repr

/-- What one round of `select` receives: a key event, another terminal event,
or a tick together with the random draws available to that tick. -/
inductive Event where
  | key (k : Key)
  | other
  | tick (draws : List (Nat × Nat))
  deriving DecidableEq, Repr

/-- Start-up of `main` after a successful `termbox.Init`, for a terminal of
`W` columns and `H` rows, when the runtime grants slices of capacity up to
`capLimit`.  Go integer division truncates. -/
def mainInit (capLimit : Int) (W H : Int) (draws : List (Nat × Nat)) : Outcome Game :=
  let vector := Right
  let width := Int.tdiv (Int.tdiv W 2) 2
  let p1 := Point.mk 2 2
  let p2 := Point.mk (width - 3) (H - 3)
  let scores := NewScores 4 1
  (NewWall capLimit p1 p2).bind fun wall =>
  let snake := NewSnake (Int.tdiv wall.P2.x 2) (Int.tdiv wall.P2.y 2)
  (randomFood wall.P1 wall.P2 snake.Points draws).bind fun food =>
  .ok { scores := scores, wall := wall, snake := snake, food := food, vector := vector,
        tickerStopped := false, exited := false }

/-- The branch `case ev := <-eq` for a key event. -/
def mainKey (g : Game) (k : Key) : Game :=
  match k with
  | .Esc => { g with exited := true }
  | .ArrowUp => { g with vector := Up, snake := g.snake.SetVector Up }
  | .ArrowDown => { g with vector := Down, snake := g.snake.SetVector Down }
  | .ArrowLeft => { g with vector := Left, snake := g.snake.SetVector Left }
  | .ArrowRight => { g with vector := Right, snake := g.snake.SetVector Right }
  | .Other _ => { g with snake := g.snake.SetVector g.vector }

/-- The branch `case <-tick.C`. -/
def mainTick (g : Game) (draws : List (Nat × Nat)) : Outcome Game :=
  (canEat g.snake g.food).bind fun c =>
  if c then
    g.snake.Eat.bind fun snake =>
    let scores := g.scores.Inc
    (randomFood g.wall.P1 g.wall.P2 snake.Points draws).bind fun food =>
    .ok { g with snake := snake, scores := scores, food := food }
  else
    g.snake.Step.bind fun snake =>
    snake.Head.bind fun head =>
    if snake.Points.length < 1 then .panic
    else if intersect head (snake.Points.drop 1) || intersect head g.wall.Points then
      .ok { g with snake := { snake with color := .ColorRed }, tickerStopped := true }
    else .ok { g with snake := snake }

/-- One round of the loop on a received event. -/
def handle (g : Game) (e : Event) : Outcome Game :=
  match e with
  | .key k => .ok (mainKey g k)
  | .other => .ok g
  | .tick draws => mainTick g draws

/-- Whether `select` can receive the event: nothing after `break loop`, and no
tick once `tick.Stop()` has been called. -/
def enabled (g : Game) (e : Event) : Bool :=
  !g.exited &&
    (match e with
     | .tick _ => !g.tickerStopped
     | _ => true)

/-- The state after a schedule of events, when every event of the schedule can
be received and every round returns. -/
def run : Game → List Event → Option Game
  | g, [] => some g
  | g, e :: es =>
    if enabled g e then
      match handle g e with
      | .ok g1 => run g1 es
      | _ => none
    else none

/-- States of the game loop that some allocation limit, some terminal size, some
random draws and some schedule of events lead to. -/
def Reachable (g : Game) : Prop :=
  ∃ (capLimit W H : Int) (draws : List (Nat × Nat)) (g0 : Game) (es : List Event),
    mainInit capLimit W H draws = .ok g0 ∧ run g0 es = some g

/-- The state the loop is in after a collision: the snake is red and the ticker
is stopped. -/
def Game.GameOver (g : Game) : Bool :=
  decide (g.snake.color = .ColorRed) && g.tickerStopped

/-- Whether the event is a tick on which the snake eats. -/
def eatsOn (g : Game) (e : Event) : Bool :=
  match e with
  | .tick _ => decide (canEat g.snake g.food = .ok true)
  | _ => false

/-- Number of ticks of a schedule on which the snake eats. -/
def eatCount : Game → List Event → Nat
  | _, [] => 0
  | g, e :: es =>
    if enabled g e then
      match handle g e with
      | .ok g1 => (if eatsOn g e then 1 else 0) + eatCount g1 es
      | _ => 0
    else 0

/-! ## Auxiliary definitions of the proofs -/

/-- The cells one column of the wall contributes: the cells the inner loop of
`NewWall` appends for the column `i`. -/
def wallColumn (p1 p2 : Point) (i : Int) : List Point :=
  ((loopRange p1.y p2.y).filter
    (fun j => decide (i = p1.x ∨ i = p2.x ∨ j = p1.y ∨ j = p2.y))).map (Point.mk i)

/-- The four directions the key handler can store. -/
def unitVectors : List Vector := [Up, Down, Left, Right]

/-- The exact opposite of a vector. -/
def Vector.opposite (v : Vector) : Vector := ⟨-v.x, -v.y⟩

/-- Invariant of the game loop: the wall is the one `NewWall` built for its
corners, the body is not empty, the direction and the pending direction are
unit vectors, and the food is strictly inside the wall and off the body. -/
def Game.Inv (g : Game) : Prop :=
  g.wall.points = wallLoop g.wall.P1 g.wall.P2 ∧
  g.snake.points ≠ [] ∧
  g.snake.vector ∈ unitVectors ∧
  g.vector ∈ unitVectors ∧
  g.food.point ∉ g.snake.points ∧
  g.wall.P1.x < g.food.point.x ∧ g.food.point.x < g.wall.P2.x ∧
  g.wall.P1.y < g.food.point.y ∧ g.food.point.y < g.wall.P2.y

/-- Whether the event is a key event or another terminal event (not a tick). -/
def Event.isTick (e : Event) : Bool :=
  match e with
  | .tick _ => true
  | _ => false

/-- Whether the event is a key event. -/
def Event.isKey (e : Event) : Bool :=
  match e with
  | .key _ => true
  | _ => false

/-- Whether the event is one of the four arrow keys. -/
def Event.isArrow (e : Event) : Bool :=
  match e with
  | .key .ArrowUp => true
  | .key .ArrowDown => true
  | .key .ArrowLeft => true
  | .key .ArrowRight => true
  | _ => false

/-- Invariant of the pending direction of `main`: it is the direction of the
snake, or the opposite direction that `SetVector` has just refused. -/
def Game.PendingInv (g : Game) : Prop :=
  g.vector = g.snake.vector ∨ g.vector = g.snake.vector.opposite

/-- The calls a client can make on a snake. -/
inductive SnakeOp where
  | SetVector (v : Vector)
  | Step
  | Eat
  deriving DecidableEq, Repr

/-- One call on a snake. -/
def applyOp (s : Snake) (op : SnakeOp) : Outcome Snake :=
  match op with
  | .SetVector v => .ok (s.SetVector v)
  | .Step => s.Step
  | .Eat => s.Eat

/-- A finite sequence of calls on a snake, from left to right. -/
def applyOps : Snake → List SnakeOp → Outcome Snake
  | s, [] => .ok s
  | s, op :: ops => (applyOp s op).bind fun s1 => applyOps s1 ops

/-- Two cells are grid neighbours: their difference is a unit vector. -/
def adjacent (a b : Point) : Prop :=
  Vector.mk (a.x - b.x) (a.y - b.y) ∈ unitVectors

/-- Every two consecutive cells of the list are grid neighbours. -/
def contiguous : List Point → Prop
  | [] => True
  | [_] => True
  | a :: b :: rest => adjacent a b ∧ contiguous (b :: rest)

/-- Invariant of the body of the snake in the game loop: a stopped ticker goes
with a red snake, the body has no repeated cell while the ticker runs,
consecutive cells are neighbours, and the score is the length minus one. -/
def Game.BodyInv (g : Game) : Prop :=
  (g.tickerStopped = true → g.snake.color = .ColorRed) ∧
  (g.tickerStopped = false → g.snake.points.Nodup) ∧
  contiguous g.snake.points ∧
  g.scores.num = (g.snake.points.length : Int) - 1

/-! ## Concrete states used in examples

A terminal of 40 columns and 12 rows gives the wall corners (2,2)-(7,9) and a
snake starting at (3,4). -/

/-- The wall of a 40 x 12 terminal. -/
def demoWall : Wall :=
  { points := wallLoop ⟨2, 2⟩ ⟨7, 9⟩, color := WallColor, P1 := ⟨2, 2⟩, P2 := ⟨7, 9⟩ }

/-- The initial state for a 40 x 12 terminal when the first food is drawn at
(4,4), right in front of the snake. -/
def demoGame : Game :=
  { scores := NewScores 4 1, wall := demoWall, snake := NewSnake 3 4, food := NewFood 4 4,
    vector := Right, tickerStopped := false, exited := false }

/-- The state `demoGame` after a tick: the snake has eaten and the next food is
at (6,6). -/
def demoEaten : Game :=
  { demoGame with
    scores := { num := 1, cursor := ⟨4, 1⟩, color := .ColorWhite }
    snake := { color := .ColorWhite, points := [⟨4, 4⟩, ⟨3, 4⟩], vector := Right }
    food := NewFood 6 6 }

/-- The state `demoEaten` after the keys ArrowUp and ArrowLeft. -/
def demoTurned : Game :=
  { demoEaten with
    snake := { color := .ColorWhite, points := [⟨4, 4⟩, ⟨3, 4⟩], vector := Left }
    vector := Left }

/-- The state `demoGame` after the key ArrowUp and one tick: the snake is at
(3,3), just below the upper wall. -/
def demoNearWall : Game :=
  { demoGame with
    snake := { color := .ColorWhite, points := [⟨3, 3⟩], vector := Up }
    vector := Up }

/-- The state `demoNearWall` after one more tick: the head is on the wall cell
(3,2), the snake is red and the ticker is stopped. -/
def demoOver : Game :=
  { demoNearWall with
    snake := { color := .ColorRed, points := [⟨3, 2⟩], vector := Up }
    tickerStopped := true }

/-- The state `demoOver` after the keys ArrowLeft, an unmapped key and Esc. -/
def demoQuit : Game :=
  { demoOver with
    snake := { color := .ColorRed, points := [⟨3, 2⟩], vector := Left }
    vector := Left
    exited := true }

/-- The state `demoGame` after the key ArrowLeft, which `SetVector` refuses:
the pending direction is `Left`, the direction of the snake still `Right`. -/
def demoRefused : Game :=
  { demoGame with vector := Left }

/-! ## Basic facts -/

theorem sliceCopy_shift (h : Point) (t : List Point) :
    sliceCopy t ((h :: t).take t.length) = (h :: t).dropLast := by
  unfold sliceCopy
  rw [List.dropLast_eq_take]
  simp

theorem Step_cons (s : Snake) (h : Point) (t : List Point) (hb : s.points = h :: t) :
    s.Step = .ok { s with points := h.Transform s.vector :: (h :: t).dropLast } := by
  unfold Snake.Step
  rw [hb]
  have h1 : ¬ (h :: t).length < 1 := by simp
  rw [if_neg h1]
  have h2 : (h :: t).take 1 ++
      sliceCopy ((h :: t).drop 1) ((h :: t).take ((h :: t).length - 1))
      = h :: (h :: t).dropLast := by
    have := sliceCopy_shift h t
    simpa using this
  rw [h2]

theorem Eat_cons (s : Snake) (h : Point) (t : List Point) (hb : s.points = h :: t) :
    s.Eat = .ok { s with points := h.Transform s.vector :: h :: t } := by
  unfold Snake.Eat
  rw [hb]
  have h2 : ((h :: t) ++ [Point.mk 0 0]).take 1 ++
      sliceCopy (((h :: t) ++ [Point.mk 0 0]).drop 1)
        (((h :: t) ++ [Point.mk 0 0]).take (((h :: t) ++ [Point.mk 0 0]).length - 1))
      = h :: h :: t := by
    have := sliceCopy_shift h (t ++ [Point.mk 0 0])
    rw [List.dropLast_eq_take] at this
    simp at this
    simp [this]
  simp only [h2, List.set_cons_zero]

/-! ## Movement -/

/-- C1. For a snake with body `h :: t` (head `h`) and direction `v`, `Step()`
returns normally; afterwards the body is `(h.x+v.x, h.y+v.y)` followed by the
old body without its last element, the direction (and the colour) is
unchanged, and the length is the old length. -/
theorem Step_spec (s : Snake) (h : Point) (t : List Point) (hb : s.points = h :: t) :
    ∃ s1 : Snake, s.Step = .ok s1 ∧
      s1.points = Point.mk (h.x + s.vector.x) (h.y + s.vector.y) :: (h :: t).dropLast ∧
      s1.vector = s.vector ∧ s1.color = s.color ∧
      s1.points.length = s.points.length ∧
      s1.Head = .ok (h.Transform s.vector) := by
  refine ⟨_, Step_cons s h t hb, rfl, rfl, rfl, ?_, rfl⟩
  simp [hb]

/-- C1, the example of the specification: the body `[(5,5),(4,5),(3,5)]` heading
`Right` becomes `[(6,5),(5,5),(4,5)]`. -/
theorem Step_spec_witness :
    (Snake.mk .ColorWhite [⟨5, 5⟩, ⟨4, 5⟩, ⟨3, 5⟩] Right).points = ⟨5, 5⟩ :: [⟨4, 5⟩, ⟨3, 5⟩] ∧
    ∃ s1 : Snake, (Snake.mk .ColorWhite [⟨5, 5⟩, ⟨4, 5⟩, ⟨3, 5⟩] Right).Step = .ok s1 ∧
      s1.points = Point.mk (5 + Right.x) (5 + Right.y) :: [⟨5, 5⟩, ⟨4, 5⟩] ∧
      s1.vector = Right ∧ s1.color = .ColorWhite ∧
      s1.points.length = 3 ∧
      s1.Head = .ok (Point.Transform ⟨5, 5⟩ Right) :=
  ⟨rfl, Step_spec (Snake.mk .ColorWhite [⟨5, 5⟩, ⟨4, 5⟩, ⟨3, 5⟩] Right) ⟨5, 5⟩
    [⟨4, 5⟩, ⟨3, 5⟩] rfl⟩

/-- C2. For a snake with body `h :: t` (head `h`) and direction `v`, `Eat()`
returns normally; afterwards the body is `(h.x+v.x, h.y+v.y)` followed by the
whole old body in its order, the direction (and the colour) is unchanged, and
the length has grown by exactly one.  In particular `Eat()` on `NewSnake x y`
yields the body `[(x+1, y), (x, y)]`. -/
theorem Eat_spec (s : Snake) (h : Point) (t : List Point) (hb : s.points = h :: t) :
    ∃ s1 : Snake, s.Eat = .ok s1 ∧
      s1.points = Point.mk (h.x + s.vector.x) (h.y + s.vector.y) :: s.points ∧
      s1.vector = s.vector ∧ s1.color = s.color ∧
      s1.points.length = s.points.length + 1 ∧
      s1.Head = .ok (h.Transform s.vector) ∧
      (∀ x y : Int, (NewSnake x y).Eat
        = .ok { color := .ColorWhite, points := [⟨x + 1, y⟩, ⟨x, y⟩], vector := Right }) := by
  refine ⟨_, Eat_cons s h t hb, ?_, rfl, rfl, ?_, rfl, ?_⟩
  · simp [hb, Point.Transform]
  · simp [hb]
  · intro x y
    rw [Eat_cons (NewSnake x y) ⟨x, y⟩ [] rfl]
    simp [NewSnake, Point.Transform, Right]

/-- C2, the example of the specification: `Eat()` on `NewSnake 7 4` yields the
body `[(8,4),(7,4)]`. -/
theorem Eat_spec_witness :
    (NewSnake 7 4).points = ⟨7, 4⟩ :: [] ∧
    ∃ s1 : Snake, (NewSnake 7 4).Eat = .ok s1 ∧
      s1.points = Point.mk (7 + 1) (4 + 0) :: [⟨7, 4⟩] ∧
      s1.vector = Right ∧ s1.color = .ColorWhite ∧
      s1.points.length = 1 + 1 ∧
      s1.Head = .ok (Point.Transform ⟨7, 4⟩ Right) ∧
      (∀ x y : Int, (NewSnake x y).Eat
        = .ok { color := .ColorWhite, points := [⟨x + 1, y⟩, ⟨x, y⟩], vector := Right }) :=
  ⟨rfl, Eat_spec (NewSnake 7 4) ⟨7, 4⟩ [] rfl⟩

/-! ## Direction filter -/

/-- C5. For every snake with direction `d` and every vector `v`, `SetVector v`
(a total function: it cannot fail) leaves the direction `v` when `v` is not the
zero vector and `v + d` is not the zero vector, and `d` otherwise; body and
colour are unchanged.  Hence each of the four unit vectors is either the exact
opposite of `d` or accepted. -/
theorem SetVector_spec (s : Snake) (v : Vector) :
    (s.SetVector v).vector
        = (if v ≠ ⟨0, 0⟩ ∧ Vector.mk (v.x + s.vector.x) (v.y + s.vector.y) ≠ ⟨0, 0⟩
           then v else s.vector) ∧
      (s.SetVector v).points = s.points ∧
      (s.SetVector v).color = s.color ∧
      (v ∉ [Up, Down, Left, Right] ∨ v = ⟨-s.vector.x, -s.vector.y⟩ ∨
        (s.SetVector v).vector = v) := by
  obtain ⟨c, b, ⟨dx, dy⟩⟩ := s
  obtain ⟨vx, vy⟩ := v
  have key : (Snake.SetVector ⟨c, b, ⟨dx, dy⟩⟩ ⟨vx, vy⟩)
      = if (vx = 0 ∧ vy = 0) ∨ (dx + vx = 0 ∧ dy + vy = 0) then ⟨c, b, ⟨dx, dy⟩⟩
        else ⟨c, b, ⟨vx, vy⟩⟩ := by
    unfold Snake.SetVector VcIsZero VcAdd
    by_cases h1 : vx = 0 ∧ vy = 0
    · simp [h1]
    · by_cases h2 : dx + vx = 0 ∧ dy + vy = 0
      · simp [h2]
      · have e1 : (vx == 0 && vy == 0) = false := by simpa using h1
        have e2 : (dx + vx == 0 && dy + vy == 0) = false := by simpa using h2
        simp only [e1, e2]
        simp [h1, h2]
  rw [key]
  by_cases h1 : vx = 0 ∧ vy = 0
  · obtain ⟨rfl, rfl⟩ := h1
    simp [Up, Down, Left, Right]
  · by_cases h2 : dx + vx = 0 ∧ dy + vy = 0
    · have h3 : vx + dx = 0 ∧ vy + dy = 0 := by omega
      have h4 : vx = -dx ∧ vy = -dy := by omega
      simp [h2, h3, h4]
    · have h3 : ¬ (vx + dx = 0 ∧ vy + dy = 0) := by omega
      simp [h1, h2, h3]

/-! ## Food placement -/

theorem intersect_eq_true_iff (p : Point) (ps : List Point) :
    intersect p ps = true ↔ p ∈ ps := by
  induction ps with
  | nil => simp [intersect]
  | cons q qs ih =>
    obtain ⟨px, py⟩ := p
    obtain ⟨qx, qy⟩ := q
    by_cases h : px = qx ∧ py = qy
    · simp [intersect, Point.Equal, h]
    · have e : (px == qx && py == qy) = false := by simpa using h
      simp only [intersect, Point.Equal, e, List.mem_cons, Point.mk.injEq]
      simp [ih, h]

theorem intersect_eq_false_iff (p : Point) (ps : List Point) :
    intersect p ps = false ↔ p ∉ ps := by
  rw [← intersect_eq_true_iff]
  simp

theorem Intn_ok (n : Int) (r : Nat) (a : Int) (h : Intn n r = .ok a) :
    0 < n ∧ 0 ≤ a ∧ a < n := by
  unfold Intn at h
  by_cases hn : n ≤ 0
  · simp [hn] at h
  · simp only [hn, if_false, Outcome.ok.injEq] at h
    subst h
    have hpos : 0 < n := by omega
    exact ⟨hpos, Int.emod_nonneg _ (by omega), Int.emod_lt_of_pos _ hpos⟩

theorem randomFood_ok (p1 p2 : Point) (excludes : List Point) (draws : List (Nat × Nat))
    (f : Food) (hr : randomFood p1 p2 excludes draws = .ok f) :
    f.point ∉ excludes ∧ p1.x < f.point.x ∧ f.point.x < p2.x ∧
      p1.y < f.point.y ∧ f.point.y < p2.y ∧ f.color = FoodColor := by
  induction draws with
  | nil => simp [randomFood] at hr
  | cons d rest ih =>
    obtain ⟨r1, r2⟩ := d
    unfold randomFood at hr
    cases ha : Intn (p2.x - p1.x - 1) r1 with
    | panic => simp [ha] at hr
    | pending => simp [ha] at hr
    | ok a =>
      cases hb : Intn (p2.y - p1.y - 1) r2 with
      | panic => simp [ha, hb] at hr
      | pending => simp [ha, hb] at hr
      | ok b =>
        simp only [ha, hb] at hr
        by_cases hi : intersect ⟨a + p1.x + 1, b + p1.y + 1⟩ excludes = true
        · simp only [hi, Bool.not_true, Bool.false_eq_true, if_false] at hr
          exact ih hr
        · have hi2 : intersect ⟨a + p1.x + 1, b + p1.y + 1⟩ excludes = false := by
            simpa using hi
          simp only [hi2, Bool.not_false, if_true, Outcome.ok.injEq] at hr
          subst hr
          have h1 := Intn_ok _ _ _ ha
          have h2 := Intn_ok _ _ _ hb
          refine ⟨(intersect_eq_false_iff _ _).1 hi2, ?_, ?_, ?_, ?_, rfl⟩ <;>
            simp only [NewFood] <;> omega

/-- C7. For corners with `p2.x - p1.x >= 2` and `p2.y - p1.y >= 2`, every
exclusion list and every sequence of random draws: whenever `randomFood`
returns a food, its point is not a point of the exclusion list (neither as a
list member nor for the scan `intersect`) and lies strictly inside the wall:
`p1.x < x < p2.x` and `p1.y < y < p2.y`. -/
theorem randomFood_spec (p1 p2 : Point) (_hx : p2.x - p1.x ≥ 2) (_hy : p2.y - p1.y ≥ 2)
    (excludes : List Point) (draws : List (Nat × Nat)) (f : Food)
    (hr : randomFood p1 p2 excludes draws = .ok f) :
    f.point ∉ excludes ∧ intersect f.point excludes = false ∧
      p1.x < f.point.x ∧ f.point.x < p2.x ∧ p1.y < f.point.y ∧ f.point.y < p2.y := by
  have h := randomFood_ok p1 p2 excludes draws f hr
  exact ⟨h.1, (intersect_eq_false_iff _ _).2 h.1, h.2.1, h.2.2.1, h.2.2.2.1, h.2.2.2.2.1⟩

/-- C7 at corners (2,2)-(7,9) with the cell (3,4) excluded: the first candidate
(3,4) is rejected and the second, (5,6), is returned. -/
theorem randomFood_spec_witness :
    ((7 : Int) - 2 ≥ 2 ∧ (9 : Int) - 2 ≥ 2 ∧
      randomFood ⟨2, 2⟩ ⟨7, 9⟩ [⟨3, 4⟩] [(0, 1), (2, 3)] = .ok (NewFood 5 6)) ∧
    ((NewFood 5 6).point ∉ [Point.mk 3 4] ∧ intersect (NewFood 5 6).point [⟨3, 4⟩] = false ∧
      (2 : Int) < (NewFood 5 6).point.x ∧ (NewFood 5 6).point.x < 7 ∧
      (2 : Int) < (NewFood 5 6).point.y ∧ (NewFood 5 6).point.y < 9) :=
  ⟨⟨by decide, by decide, by decide⟩,
    randomFood_spec ⟨2, 2⟩ ⟨7, 9⟩ (by decide) (by decide) [⟨3, 4⟩] [(0, 1), (2, 3)]
      (NewFood 5 6) (by decide)⟩

/-! ## Wall -/

theorem mem_loopRange (lo hi k : Int) : k ∈ loopRange lo hi ↔ lo ≤ k ∧ k ≤ hi := by
  unfold loopRange
  simp only [List.mem_map, List.mem_range]
  constructor
  · rintro ⟨n, hn, rfl⟩
    omega
  · rintro ⟨h1, h2⟩
    exact ⟨(k - lo).toNat, by omega, by omega⟩

theorem nodup_loopRange (lo hi : Int) : (loopRange lo hi).Nodup := by
  unfold loopRange
  refine List.Nodup.map ?_ (List.nodup_range _)
  intro a b h
  simpa using h

theorem foldl_append_flatMap {α β : Type} (f : α → List β) (l : List α) (init : List β) :
    l.foldl (fun acc a => acc ++ f a) init = init ++ l.flatMap f := by
  induction l generalizing init with
  | nil => simp
  | cons a l ih => simp [ih, List.append_assoc]

theorem wallLoop_inner (p1 p2 : Point) (i : Int) (l : List Int) (init : List Point) :
    l.foldl
        (fun points j =>
          if i = p1.x ∨ i = p2.x ∨ j = p1.y ∨ j = p2.y then points ++ [Point.mk i j]
          else points)
        init
      = init ++ (l.filter
          (fun j => decide (i = p1.x ∨ i = p2.x ∨ j = p1.y ∨ j = p2.y))).map (Point.mk i) := by
  induction l generalizing init with
  | nil => simp
  | cons j l ih =>
    by_cases h : i = p1.x ∨ i = p2.x ∨ j = p1.y ∨ j = p2.y
    · simp only [List.foldl_cons, if_pos h, ih, List.filter_cons, decide_eq_true h, if_true,
        List.map_cons, List.append_assoc, List.singleton_append]
    · simp only [List.foldl_cons, if_neg h, ih, List.filter_cons, decide_eq_false h,
        Bool.false_eq_true, if_false]

theorem wallLoop_eq (p1 p2 : Point) :
    wallLoop p1 p2 = (loopRange p1.x p2.x).flatMap (wallColumn p1 p2) := by
  unfold wallLoop
  have h : (fun (points : List Point) (i : Int) =>
      (loopRange p1.y p2.y).foldl
        (fun points j =>
          if i = p1.x ∨ i = p2.x ∨ j = p1.y ∨ j = p2.y then points ++ [Point.mk i j]
          else points)
        points) = (fun points i => points ++ wallColumn p1 p2 i) := by
    funext points i
    exact wallLoop_inner p1 p2 i _ points
  rw [h, foldl_append_flatMap]
  simp

theorem mem_wallColumn (p1 p2 : Point) (i : Int) (q : Point) :
    q ∈ wallColumn p1 p2 i ↔
      q.x = i ∧ p1.y ≤ q.y ∧ q.y ≤ p2.y ∧ (i = p1.x ∨ i = p2.x ∨ q.y = p1.y ∨ q.y = p2.y) := by
  obtain ⟨x, y⟩ := q
  unfold wallColumn
  simp only [List.mem_map, List.mem_filter, mem_loopRange, decide_eq_true_eq, Point.mk.injEq]
  constructor
  · rintro ⟨j, ⟨hj, hc⟩, rfl, rfl⟩
    exact ⟨rfl, hj.1, hj.2, hc⟩
  · rintro ⟨rfl, h1, h2, hc⟩
    exact ⟨y, ⟨⟨h1, h2⟩, hc⟩, rfl, rfl⟩

theorem mem_wallLoop (p1 p2 q : Point) :
    q ∈ wallLoop p1 p2 ↔
      p1.x ≤ q.x ∧ q.x ≤ p2.x ∧ p1.y ≤ q.y ∧ q.y ≤ p2.y ∧
        (q.x = p1.x ∨ q.x = p2.x ∨ q.y = p1.y ∨ q.y = p2.y) := by
  rw [wallLoop_eq, List.mem_flatMap]
  constructor
  · rintro ⟨i, hi, hq⟩
    rw [mem_loopRange] at hi
    rw [mem_wallColumn] at hq
    obtain ⟨rfl, h1, h2, hc⟩ := hq
    exact ⟨hi.1, hi.2, h1, h2, hc⟩
  · rintro ⟨h1, h2, h3, h4, hc⟩
    exact ⟨q.x, (mem_loopRange _ _ _).2 ⟨h1, h2⟩, (mem_wallColumn _ _ _ _).2 ⟨rfl, h3, h4, hc⟩⟩

theorem nodup_wallLoop (p1 p2 : Point) : (wallLoop p1 p2).Nodup := by
  rw [wallLoop_eq, List.nodup_flatMap]
  constructor
  · intro i _
    unfold wallColumn
    refine List.Nodup.map ?_ ((nodup_loopRange _ _).filter _)
    intro a b h
    simpa using h
  · refine List.Pairwise.imp ?_ (nodup_loopRange p1.x p2.x)
    intro a b hab
    show List.Disjoint (wallColumn p1 p2 a) (wallColumn p1 p2 b)
    intro q ha hb
    rw [mem_wallColumn] at ha hb
    exact hab (ha.1.symm.trans hb.1)

theorem length_wallLoop (p1 p2 : Point) (hx : p1.x < p2.x) (hy : p1.y < p2.y) :
    ((wallLoop p1 p2).length : Int)
      = 2 * ((p2.x - p1.x + 1) + (p2.y - p1.y + 1)) - 4 := by
  rw [← List.toFinset_card_of_nodup (nodup_wallLoop p1 p2)]
  have hset : (wallLoop p1 p2).toFinset
      = ((Finset.Icc p1.x p2.x ×ˢ Finset.Icc p1.y p2.y) \
          (Finset.Ioo p1.x p2.x ×ˢ Finset.Ioo p1.y p2.y)).map
          ⟨fun q => Point.mk q.1 q.2, by
            intro a b h
            simp only [Point.mk.injEq] at h
            exact Prod.ext h.1 h.2⟩ := by
    ext q
    obtain ⟨x, y⟩ := q
    simp only [List.mem_toFinset, mem_wallLoop, Finset.mem_map, Finset.mem_sdiff,
      Finset.mem_product, Finset.mem_Icc, Finset.mem_Ioo, Function.Embedding.coeFn_mk,
      Prod.exists, Point.mk.injEq]
    constructor
    · rintro ⟨h1, h2, h3, h4, hc⟩
      exact ⟨x, y, ⟨⟨⟨h1, h2⟩, ⟨h3, h4⟩⟩, by omega⟩, rfl, rfl⟩
    · rintro ⟨a, b, ⟨⟨⟨h1, h2⟩, ⟨h3, h4⟩⟩, hn⟩, rfl, rfl⟩
      exact ⟨h1, h2, h3, h4, by omega⟩
  have hsub : Finset.Ioo p1.x p2.x ×ˢ Finset.Ioo p1.y p2.y
      ⊆ Finset.Icc p1.x p2.x ×ˢ Finset.Icc p1.y p2.y :=
    Finset.product_subset_product Finset.Ioo_subset_Icc_self Finset.Ioo_subset_Icc_self
  rw [hset, Finset.card_map, Finset.card_sdiff hsub, Finset.card_product, Finset.card_product,
    Int.card_Icc, Int.card_Icc, Int.card_Ioo, Int.card_Ioo]
  obtain ⟨a, ha⟩ : ∃ a : Nat, p2.x - p1.x = (a : Int) + 1 :=
    ⟨(p2.x - p1.x - 1).toNat, by omega⟩
  obtain ⟨b, hb⟩ : ∃ b : Nat, p2.y - p1.y = (b : Int) + 1 :=
    ⟨(p2.y - p1.y - 1).toNat, by omega⟩
  have e1 : (p2.x + 1 - p1.x).toNat = a + 2 := by omega
  have e2 : (p2.y + 1 - p1.y).toNat = b + 2 := by omega
  have e3 : (p2.x - p1.x - 1).toNat = a := by omega
  have e4 : (p2.y - p1.y - 1).toNat = b := by omega
  rw [e1, e2, e3, e4, ha, hb]
  have e5 : (a + 2) * (b + 2) - a * b = 2 * a + 2 * b + 4 := by
    apply Nat.sub_eq_of_eq_add
    ring
  rw [e5]
  push_cast
  ring

/-- C8, refuted as stated.  The corners `(2^50 - 1, 0)` and `(2^50, 1)` satisfy
`p1.x < p2.x` and `p1.y < p2.y`, and the capacity hint `(p2.x+p2.y)*2` is
non-negative, but it is `2^51 + 2`, above every capacity the runtime grants:
`make` panics and the constructor does not return. -/
theorem NewWall_counterexample :
    (Point.mk (2 ^ 50 - 1) 0).x < (Point.mk (2 ^ 50) 1).x ∧
      (Point.mk (2 ^ 50 - 1) 0).y < (Point.mk (2 ^ 50) 1).y ∧
      0 ≤ ((Point.mk (2 ^ 50) 1).x + (Point.mk (2 ^ 50) 1).y) * 2 ∧
      maxPointCap < ((Point.mk (2 ^ 50) 1).x + (Point.mk (2 ^ 50) 1).y) * 2 ∧
      NewWall maxPointCap ⟨2 ^ 50 - 1, 0⟩ ⟨2 ^ 50, 1⟩ = .panic := by
  refine ⟨by decide, by decide, by decide, by decide, by decide⟩

/-- C8, amended.  For corners with `p1.x < p2.x` and `p1.y < p2.y` and a
capacity hint `(p2.x+p2.y)*2` that `make` accepts, that is non-negative and not
above the largest capacity `capLimit` the runtime grants, `NewWall` returns a
wall whose `Points()` is a duplicate-free list containing `(x, y)` exactly when
`p1.x <= x <= p2.x`, `p1.y <= y <= p2.y` and the cell is on one of the four
sides; it contains no interior cell and has `2*(width+height) - 4` elements for
`width = p2.x - p1.x + 1`, `height = p2.y - p1.y + 1`. -/
theorem NewWall_spec (capLimit : Int) (p1 p2 : Point) (hx : p1.x < p2.x)
    (hy : p1.y < p2.y) (hcap : 0 ≤ (p2.x + p2.y) * 2)
    (hlim : (p2.x + p2.y) * 2 ≤ capLimit) :
    ∃ w : Wall, NewWall capLimit p1 p2 = .ok w ∧ w.P1 = p1 ∧ w.P2 = p2 ∧
      w.Points.Nodup ∧
      (∀ x y : Int, Point.mk x y ∈ w.Points ↔
        p1.x ≤ x ∧ x ≤ p2.x ∧ p1.y ≤ y ∧ y ≤ p2.y ∧
          (x = p1.x ∨ x = p2.x ∨ y = p1.y ∨ y = p2.y)) ∧
      (∀ x y : Int, p1.x < x ∧ x < p2.x ∧ p1.y < y ∧ y < p2.y → Point.mk x y ∉ w.Points) ∧
      (w.Points.length : Int) = 2 * ((p2.x - p1.x + 1) + (p2.y - p1.y + 1)) - 4 := by
  refine ⟨{ points := wallLoop p1 p2, color := WallColor, P1 := p1, P2 := p2 }, ?_, rfl, rfl,
    nodup_wallLoop p1 p2, fun x y => mem_wallLoop p1 p2 ⟨x, y⟩, ?_, length_wallLoop p1 p2 hx hy⟩
  · unfold NewWall
    rw [if_neg (by omega)]
  · intro x y h hm
    have := (mem_wallLoop p1 p2 ⟨x, y⟩).1 hm
    simp only at this
    omega

/-- C8, amended, for the corners (2,2)-(10,10) on a 64-bit platform: the hint
is 40 and the wall has `2*(9+9) - 4 = 32` cells. -/
theorem NewWall_spec_witness :
    (((2 : Int) < 10 ∧ (2 : Int) < 10 ∧ (0 : Int) ≤ (10 + 10) * 2 ∧
        ((10 : Int) + 10) * 2 ≤ maxPointCap) ∧
      ∃ w : Wall, NewWall maxPointCap ⟨2, 2⟩ ⟨10, 10⟩ = .ok w ∧ w.P1 = ⟨2, 2⟩ ∧
        w.P2 = ⟨10, 10⟩ ∧
        w.Points.Nodup ∧
        (∀ x y : Int, Point.mk x y ∈ w.Points ↔
          2 ≤ x ∧ x ≤ 10 ∧ 2 ≤ y ∧ y ≤ 10 ∧ (x = 2 ∨ x = 10 ∨ y = 2 ∨ y = 10)) ∧
        (∀ x y : Int, 2 < x ∧ x < 10 ∧ 2 < y ∧ y < 10 → Point.mk x y ∉ w.Points) ∧
        (w.Points.length : Int) = 2 * ((10 - 2 + 1) + (10 - 2 + 1)) - 4) ∧
      (2 : Int) * ((10 - 2 + 1) + (10 - 2 + 1)) - 4 = 32 :=
  ⟨⟨⟨by decide, by decide, by decide, by decide⟩,
    NewWall_spec maxPointCap ⟨2, 2⟩ ⟨10, 10⟩ (by decide) (by decide) (by decide)
      (by decide)⟩, by decide⟩

/-! ## Game loop -/

theorem Point.Equal_eq_decide (p q : Point) : p.Equal q = decide (p = q) := by
  obtain ⟨px, py⟩ := p
  obtain ⟨qx, qy⟩ := q
  by_cases h : px = qx ∧ py = qy
  · simp [Point.Equal, h]
  · have e : (px == qx && py == qy) = false := by simpa using h
    simp only [Point.Equal, e, Point.mk.injEq]
    simp [h]

theorem canEat_cons (s : Snake) (f : Food) (h : Point) (t : List Point)
    (hb : s.points = h :: t) :
    canEat s f = .ok (decide (f.point = h.Transform s.vector)) := by
  unfold canEat Snake.Head
  rw [hb]
  simp [Point.Equal_eq_decide]

theorem mainTick_cons (g : Game) (h : Point) (t : List Point)
    (hb : g.snake.points = h :: t) (draws : List (Nat × Nat)) :
    mainTick g draws =
      if g.food.point = h.Transform g.snake.vector then
        (randomFood g.wall.P1 g.wall.P2 (h.Transform g.snake.vector :: h :: t) draws).bind
          fun food =>
            .ok { g with
                  snake := { g.snake with points := h.Transform g.snake.vector :: h :: t }
                  scores := g.scores.Inc
                  food := food }
      else if intersect (h.Transform g.snake.vector) (h :: t).dropLast
          || intersect (h.Transform g.snake.vector) g.wall.points then
        .ok { g with
              snake := { g.snake with
                         points := h.Transform g.snake.vector :: (h :: t).dropLast
                         color := .ColorRed }
              tickerStopped := true }
      else
        .ok { g with
              snake := { g.snake with
                         points := h.Transform g.snake.vector :: (h :: t).dropLast } } := by
  unfold mainTick
  rw [canEat_cons g.snake g.food h t hb, Step_cons _ h t hb, Eat_cons _ h t hb]
  by_cases e : g.food.point = h.Transform g.snake.vector
  · simp [Outcome.bind, e, Snake.Points]
  · simp [Outcome.bind, e, Snake.Points, Snake.Head, Wall.Points]

theorem mainTick_nil (g : Game) (hb : g.snake.points = []) (draws : List (Nat × Nat)) :
    mainTick g draws = .panic := by
  unfold mainTick canEat Snake.Head
  rw [hb]
  rfl

theorem SetVector_points (s : Snake) (v : Vector) : (s.SetVector v).points = s.points := by
  unfold Snake.SetVector
  split <;> rfl

theorem SetVector_color (s : Snake) (v : Vector) : (s.SetVector v).color = s.color := by
  unfold Snake.SetVector
  split <;> rfl

theorem SetVector_vector_cases (s : Snake) (v : Vector) :
    (s.SetVector v).vector = s.vector ∨
      ((s.SetVector v).vector = v ∧ v ≠ ⟨0, 0⟩ ∧ v ≠ s.vector.opposite) := by
  obtain ⟨c, b, ⟨dx, dy⟩⟩ := s
  obtain ⟨vx, vy⟩ := v
  unfold Snake.SetVector VcIsZero VcAdd Vector.opposite
  by_cases h1 : vx = 0 ∧ vy = 0
  · left
    simp [h1]
  · by_cases h2 : dx + vx = 0 ∧ dy + vy = 0
    · left
      simp [h2]
    · right
      have e1 : (vx == 0 && vy == 0) = false := by simpa using h1
      have e2 : (dx + vx == 0 && dy + vy == 0) = false := by simpa using h2
      simp only [e1, e2]
      refine ⟨by simp, by simpa using h1, ?_⟩
      simp only [ne_eq, Vector.mk.injEq]
      omega

/-! ## The invariant of the loop -/

theorem bind_eq_ok {α β : Type} (o : Outcome α) (f : α → Outcome β) (b : β)
    (h : o.bind f = .ok b) : ∃ a, o = .ok a ∧ f a = .ok b := by
  cases o with
  | ok a => exact ⟨a, rfl, h⟩
  | panic => simp [Outcome.bind] at h
  | pending => simp [Outcome.bind] at h

theorem inv_mainInit (capLimit W H : Int) (draws : List (Nat × Nat)) (g0 : Game)
    (h : mainInit capLimit W H draws = .ok g0) : g0.Inv := by
  unfold mainInit at h
  obtain ⟨wall, hw, h⟩ := bind_eq_ok _ _ _ h
  obtain ⟨food, hf, h⟩ := bind_eq_ok _ _ _ h
  simp only [Outcome.ok.injEq] at h
  subst h
  have hwall : wall.points = wallLoop wall.P1 wall.P2 := by
    unfold NewWall at hw
    split at hw
    · simp at hw
    · simp only [Outcome.ok.injEq] at hw
      subst hw
      rfl
  have hfood := randomFood_ok _ _ _ _ _ hf
  refine ⟨hwall, ?_, ?_, ?_, hfood.1, hfood.2.1, hfood.2.2.1, hfood.2.2.2.1, hfood.2.2.2.2.1⟩
  · simp [NewSnake]
  · simp [NewSnake, unitVectors]
  · simp [unitVectors]

theorem SetVector_unit (s : Snake) (v : Vector) (hs : s.vector ∈ unitVectors)
    (hv : v ∈ unitVectors) : (s.SetVector v).vector ∈ unitVectors := by
  rcases SetVector_vector_cases s v with h | h
  · rw [h]; exact hs
  · rw [h.1]; exact hv

theorem inv_mainKey (g : Game) (k : Key) (hg : g.Inv) : (mainKey g k).Inv := by
  obtain ⟨h1, h2, h3, h4, h5, h6⟩ := hg
  cases k <;>
    refine ⟨h1, ?_, ?_, ?_, ?_, h6⟩ <;>
    simp only [mainKey, SetVector_points] <;>
    first
      | assumption
      | exact SetVector_unit _ _ h3 h4
      | exact SetVector_unit _ _ h3 (by simp [unitVectors])
      | simp [unitVectors]

theorem inv_mainTick (g : Game) (draws : List (Nat × Nat)) (g1 : Game) (hg : g.Inv)
    (ht : mainTick g draws = .ok g1) : g1.Inv := by
  obtain ⟨h1, h2, h3, h4, h5, h6⟩ := hg
  obtain ⟨h, t, hb⟩ := List.exists_cons_of_ne_nil h2
  rw [mainTick_cons g h t hb] at ht
  have hdrop : g.food.point ∉ (h :: t).dropLast := fun hm =>
    h5 (hb ▸ List.dropLast_subset _ hm)
  split at ht
  · obtain ⟨food, hf, ht⟩ := bind_eq_ok _ _ _ ht
    simp only [Outcome.ok.injEq] at ht
    subst ht
    have hfood := randomFood_ok _ _ _ _ _ hf
    exact ⟨h1, by simp, h3, h4, hfood.1, hfood.2.1, hfood.2.2.1, hfood.2.2.2.1,
      hfood.2.2.2.2.1⟩
  · rename_i hne
    split at ht <;>
    · simp only [Outcome.ok.injEq] at ht
      subst ht
      refine ⟨h1, by simp, h3, h4, ?_, h6⟩
      simp only [List.mem_cons, not_or]
      exact ⟨hne, hdrop⟩

theorem inv_handle (g : Game) (e : Event) (g1 : Game) (hg : g.Inv)
    (h : handle g e = .ok g1) : g1.Inv := by
  cases e with
  | key k =>
    simp only [handle, Outcome.ok.injEq] at h
    subst h
    exact inv_mainKey g k hg
  | other =>
    simp only [handle, Outcome.ok.injEq] at h
    subst h
    exact hg
  | tick draws => exact inv_mainTick g draws g1 hg h

theorem run_cons_eq_some (g : Game) (e : Event) (es : List Event) (g2 : Game)
    (h : run g (e :: es) = some g2) :
    enabled g e = true ∧ ∃ g1, handle g e = .ok g1 ∧ run g1 es = some g2 := by
  unfold run at h
  by_cases he : enabled g e = true
  · rw [if_pos he] at h
    refine ⟨he, ?_⟩
    cases hh : handle g e with
    | ok g1 => rw [hh] at h; exact ⟨g1, rfl, h⟩
    | panic => rw [hh] at h; simp at h
    | pending => rw [hh] at h; simp at h
  · rw [if_neg he] at h
    simp at h

theorem inv_run (es : List Event) (g g2 : Game) (hg : g.Inv) (h : run g es = some g2) :
    g2.Inv := by
  induction es generalizing g with
  | nil =>
    simp only [run, Option.some.injEq] at h
    subst h
    exact hg
  | cons e es ih =>
    obtain ⟨_, g1, h1, h2⟩ := run_cons_eq_some g e es g2 h
    exact ih g1 (inv_handle g e g1 hg h1) h2

theorem inv_of_reachable (g : Game) (h : Reachable g) : g.Inv := by
  obtain ⟨capLimit, W, H, draws, g0, es, h0, hrun⟩ := h
  exact inv_run es g0 g (inv_mainInit capLimit W H draws g0 h0) hrun

theorem reachable_demoGame : Reachable demoGame :=
  ⟨maxPointCap, 40, 12, [(1, 1)], demoGame, [], by decide, rfl⟩

theorem reachable_demoNearWall : Reachable demoNearWall :=
  ⟨maxPointCap, 40, 12, [(1, 1)], demoGame, [.key .ArrowUp, .tick []], by decide, by decide⟩

theorem enabled_tick_iff (g : Game) (draws : List (Nat × Nat)) :
    enabled g (.tick draws) = true ↔ g.exited = false ∧ g.tickerStopped = false := by
  unfold enabled
  cases g.exited <;> cases g.tickerStopped <;> simp

/-! ## The tick -/

/-- C3. In a running state (the tick can be received) with body `b0 :: t`,
direction `v`, food `f` and score `n`, let `h1 = (b0.x+v.x, b0.y+v.y)`.
If `h1 = f`, the tick is exactly: run `randomFood` on the wall corners with the
exclusion list `h1 :: b0 :: t` (the body after growth), and when it returns a
food, continue with body `h1 :: b0 :: t`, score `n+1` and that food.
Otherwise the tick returns a state with body `h1` followed by `b0 :: t`
without its last element, the same food, the same score and the same
direction. -/
theorem tick_spec (g : Game) (b0 : Point) (t : List Point) (draws : List (Nat × Nat))
    (_hrun : enabled g (.tick draws) = true) (hb : g.snake.points = b0 :: t) :
    (Point.mk (b0.x + g.snake.vector.x) (b0.y + g.snake.vector.y) = g.food.point →
      handle g (.tick draws) =
        (randomFood g.wall.P1 g.wall.P2
          (Point.mk (b0.x + g.snake.vector.x) (b0.y + g.snake.vector.y) :: b0 :: t) draws).bind
          fun food =>
            .ok { g with
                  snake := { g.snake with
                    points :=
                      Point.mk (b0.x + g.snake.vector.x) (b0.y + g.snake.vector.y) :: b0 :: t }
                  scores := { g.scores with num := g.scores.num + 1 }
                  food := food }) ∧
    (Point.mk (b0.x + g.snake.vector.x) (b0.y + g.snake.vector.y) ≠ g.food.point →
      ∃ g1 : Game, handle g (.tick draws) = .ok g1 ∧
        g1.snake.points =
          Point.mk (b0.x + g.snake.vector.x) (b0.y + g.snake.vector.y) :: (b0 :: t).dropLast ∧
        g1.food = g.food ∧ g1.scores = g.scores ∧ g1.snake.vector = g.snake.vector) := by
  have hm := mainTick_cons g b0 t hb draws
  constructor
  · intro he
    have he2 : g.food.point = b0.Transform g.snake.vector := he.symm
    show mainTick g draws = _
    rw [hm, if_pos he2]
    rfl
  · intro hne
    have hne2 : ¬ g.food.point = b0.Transform g.snake.vector := fun h => hne h.symm
    show ∃ g1 : Game, mainTick g draws = .ok g1 ∧ _
    rw [hm, if_neg hne2]
    split
    · exact ⟨_, rfl, rfl, rfl, rfl, rfl⟩
    · exact ⟨_, rfl, rfl, rfl, rfl, rfl⟩

/-- C3 on the state `demoGame`, whose food (4,4) is right in front of the head
(3,4): the tick eats, and with the draws `(3,3)` the new food is (6,6). -/
theorem tick_spec_witness :
    enabled demoGame (.tick [(3, 3)]) = true ∧ demoGame.snake.points = ⟨3, 4⟩ :: [] ∧
      handle demoGame (.tick [(3, 3)]) = .ok demoEaten :=
  ⟨by decide, rfl,
    ((tick_spec demoGame ⟨3, 4⟩ [] [(3, 3)] (by decide) rfl).1 (by decide)).trans (by decide)⟩

/-- C4. In every state reachable from the initial state, a tick that is
received and returns (whether it moved the snake by `Eat` or by `Step`) ends
in GameOver (snake red, ticker stopped) if and only if the new head is one of
the other body segments or a point of the wall. -/
theorem tick_gameOver_iff (g : Game) (hr : Reachable g) (draws : List (Nat × Nat))
    (g1 : Game) (hen : enabled g (.tick draws) = true)
    (ht : handle g (.tick draws) = .ok g1) :
    g1.GameOver = true ↔
      ∃ (h : Point) (t : List Point), g1.snake.points = h :: t ∧ (h ∈ t ∨ h ∈ g1.wall.Points) := by
  obtain ⟨h1, h2, h3, h4, h5, h6⟩ := inv_of_reachable g hr
  obtain ⟨b0, t, hb⟩ := List.exists_cons_of_ne_nil h2
  have hstop : g.tickerStopped = false := ((enabled_tick_iff g draws).1 hen).2
  change mainTick g draws = .ok g1 at ht
  rw [mainTick_cons g b0 t hb] at ht
  split at ht
  · rename_i he
    obtain ⟨food, _, ht⟩ := bind_eq_ok _ _ _ ht
    simp only [Outcome.ok.injEq] at ht
    subst ht
    have hnb : b0.Transform g.snake.vector ∉ b0 :: t := by
      rw [← he, ← hb]; exact h5
    have hnw : b0.Transform g.snake.vector ∉ g.wall.points := by
      rw [← he, h1, mem_wallLoop]
      omega
    constructor
    · intro hover
      simp [Game.GameOver, hstop] at hover
    · rintro ⟨h, t1, hp, hc⟩
      simp only [List.cons.injEq] at hp
      obtain ⟨rfl, rfl⟩ := hp
      rcases hc with hc | hc
      · exact absurd hc hnb
      · exact absurd hc hnw
  · split at ht
    · rename_i hcol
      simp only [Outcome.ok.injEq] at ht
      subst ht
      constructor
      · intro _
        refine ⟨_, _, rfl, ?_⟩
        simp only [Bool.or_eq_true, intersect_eq_true_iff] at hcol
        exact hcol
      · intro _
        simp [Game.GameOver]
    · rename_i hcol
      simp only [Outcome.ok.injEq] at ht
      subst ht
      constructor
      · intro hover
        simp [Game.GameOver, hstop] at hover
      · rintro ⟨h, t1, hp, hc⟩
        simp only [List.cons.injEq] at hp
        obtain ⟨rfl, rfl⟩ := hp
        simp only [Bool.or_eq_true, intersect_eq_true_iff] at hcol
        exact absurd hc hcol

/-- C4 on the state `demoNearWall`: the tick moves the head from (3,3) to the
wall cell (3,2) and ends in GameOver. -/
theorem tick_gameOver_iff_witness :
    (Reachable demoNearWall ∧ enabled demoNearWall (.tick []) = true ∧
      handle demoNearWall (.tick []) = .ok demoOver) ∧
    (demoOver.GameOver = true ↔
      ∃ (h : Point) (t : List Point),
        demoOver.snake.points = h :: t ∧ (h ∈ t ∨ h ∈ demoOver.wall.Points)) :=
  ⟨⟨reachable_demoNearWall, by decide, by decide⟩,
    tick_gameOver_iff demoNearWall reachable_demoNearWall [] demoOver (by decide) (by decide)⟩

/-! ## Reversal -/

theorem unit_ne_opposite (d : Vector) (hd : d ∈ unitVectors) : d ≠ d.opposite := by
  obtain ⟨x, y⟩ := d
  simp only [unitVectors, Up, Down, Left, Right, List.mem_cons, Vector.mk.injEq,
    List.mem_singleton, List.not_mem_nil, or_false] at hd
  simp only [Vector.opposite, ne_eq, Vector.mk.injEq]
  omega

theorem mainKey_no_reversal (g : Game) (k : Key) (hd : g.snake.vector ∈ unitVectors) :
    (mainKey g k).snake.vector ≠ g.snake.vector.opposite := by
  have hself := unit_ne_opposite _ hd
  have h : ∀ v, (g.snake.SetVector v).vector ≠ g.snake.vector.opposite := by
    intro v
    rcases SetVector_vector_cases g.snake v with h | h
    · rw [h]; exact hself
    · rw [h.1]; exact h.2.2
  cases k <;> first | exact h _ | exact hself

theorem mainKey_points (g : Game) (k : Key) :
    (mainKey g k).snake.points = g.snake.points := by
  cases k <;> simp [mainKey, SetVector_points]

theorem run_quiet (es : List Event) (g g2 : Game)
    (hnt : ∀ e ∈ es, e.isTick = false) (hnk : (es.filter Event.isKey).length = 0)
    (h : run g es = some g2) : g2 = g := by
  induction es generalizing g with
  | nil =>
    simp only [run, Option.some.injEq] at h
    exact h.symm
  | cons e es ih =>
    obtain ⟨_, g1, h1, h2⟩ := run_cons_eq_some g e es g2 h
    cases e with
    | key k => simp [Event.isKey] at hnk
    | tick d => simpa [Event.isTick] using hnt (.tick d) (by simp)
    | other =>
      simp only [handle, Outcome.ok.injEq] at h1
      subst h1
      refine ih _ (fun e he => hnt e (List.mem_cons_of_mem _ he)) ?_ h2
      simpa [List.filter_cons, Event.isKey] using hnk

theorem run_one_key (es : List Event) (g g2 : Game) (hd : g.snake.vector ∈ unitVectors)
    (hnt : ∀ e ∈ es, e.isTick = false) (hk : (es.filter Event.isKey).length ≤ 1)
    (h : run g es = some g2) :
    g2.snake.points = g.snake.points ∧ g2.snake.vector ≠ g.snake.vector.opposite := by
  induction es generalizing g with
  | nil =>
    simp only [run, Option.some.injEq] at h
    subst h
    exact ⟨rfl, unit_ne_opposite _ hd⟩
  | cons e es ih =>
    obtain ⟨_, g1, h1, h2⟩ := run_cons_eq_some g e es g2 h
    have hnt2 : ∀ e ∈ es, e.isTick = false := fun e he => hnt e (List.mem_cons_of_mem _ he)
    cases e with
    | tick d => simpa [Event.isTick] using hnt (.tick d) (by simp)
    | other =>
      simp only [handle, Outcome.ok.injEq] at h1
      subst h1
      exact ih _ hd hnt2 (by simpa [List.filter_cons, Event.isKey] using hk) h2
    | key k =>
      simp only [handle, Outcome.ok.injEq] at h1
      subst h1
      have hq := run_quiet es _ g2 hnt2
        (by simp only [List.filter_cons, Event.isKey, if_true, List.length_cons] at hk; omega) h2
      subst hq
      exact ⟨mainKey_points g k, mainKey_no_reversal g k hd⟩

theorem mainTick_head (g : Game) (draws : List (Nat × Nat)) (g1 : Game)
    (ht : mainTick g draws = .ok g1) :
    g1.snake.vector = g.snake.vector ∧
      ∀ (h s : Point) (rest : List Point), g1.snake.points = h :: s :: rest →
        h = s.Transform g.snake.vector := by
  cases hb : g.snake.points with
  | nil => rw [mainTick_nil g hb] at ht; simp at ht
  | cons b0 t =>
    rw [mainTick_cons g b0 t hb] at ht
    have hdl : ∀ (h s : Point) (rest : List Point),
        b0.Transform g.snake.vector :: (b0 :: t).dropLast = h :: s :: rest →
          h = s.Transform g.snake.vector := by
      intro h s rest hp
      cases t with
      | nil => simp at hp
      | cons t0 t1 =>
        simp only [List.dropLast_cons₂, List.cons.injEq] at hp
        rw [← hp.1, ← hp.2.1]
    split at ht
    · obtain ⟨food, _, ht⟩ := bind_eq_ok _ _ _ ht
      simp only [Outcome.ok.injEq] at ht
      subst ht
      refine ⟨rfl, ?_⟩
      intro h s rest hp
      simp only [List.cons.injEq] at hp
      rw [← hp.1, ← hp.2.1]
    · split at ht <;>
      · simp only [Outcome.ok.injEq] at ht
        subst ht
        exact ⟨rfl, hdl⟩

/-- C6, refuted as stated.  From the reachable state `demoGame` (direction
`Right`) the tick with draws `(3,3)` eats and gives `demoEaten`; the keys
ArrowUp and ArrowLeft, both accepted one after the other, give `demoTurned`,
in which the next tick can be received.  Its direction is `Left`, the exact
opposite of the direction of the earlier tick, the snake has two segments and
the projected head (3,4) is the position of `body[1]`; the tick moves the head
there. -/
theorem reversal_counterexample :
    Reachable demoGame ∧ demoGame.snake.vector = Right ∧
      enabled demoGame (.tick [(3, 3)]) = true ∧
      handle demoGame (.tick [(3, 3)]) = .ok demoEaten ∧
      run demoEaten [.key .ArrowUp, .key .ArrowLeft] = some demoTurned ∧
      enabled demoTurned (.tick []) = true ∧
      demoTurned.snake.vector = demoGame.snake.vector.opposite ∧
      demoTurned.snake.points = [⟨4, 4⟩, ⟨3, 4⟩] ∧
      Point.Transform ⟨4, 4⟩ demoTurned.snake.vector = ⟨3, 4⟩ ∧
      handle demoTurned (.tick []) =
        .ok { demoTurned with
              snake := { demoTurned.snake with points := [⟨3, 4⟩, ⟨4, 4⟩] } } :=
  ⟨⟨maxPointCap, 40, 12, [(1, 1)], demoGame, [], by decide, rfl⟩, rfl, by decide, by decide, by decide,
    by decide, by decide, rfl, by decide, by decide⟩

/-- C6, amended.  In every run of the game loop, when the events arriving
between two consecutive ticks contain at most one key event, the direction
used for the later tick is never the exact opposite of the direction used for
the earlier tick, and for a snake of at least two segments the projected next
head never equals the position of `body[1]`. -/
theorem no_reversal_single_key (g : Game) (hr : Reachable g) (draws : List (Nat × Nat))
    (g1 : Game) (_hen : enabled g (.tick draws) = true)
    (ht : handle g (.tick draws) = .ok g1)
    (es : List Event) (hnt : ∀ e ∈ es, e.isTick = false)
    (hk : (es.filter Event.isKey).length ≤ 1)
    (g2 : Game) (hrun : run g1 es = some g2) :
    g2.snake.vector ≠ g.snake.vector.opposite ∧
      ∀ (h s : Point) (rest : List Point), g2.snake.points = h :: s :: rest →
        h.Transform g2.snake.vector ≠ s := by
  have hinv := inv_of_reachable g hr
  obtain ⟨hv, hhead⟩ := mainTick_head g draws g1 ht
  have hd1 : g1.snake.vector ∈ unitVectors := by rw [hv]; exact hinv.2.2.1
  obtain ⟨hp, hne⟩ := run_one_key es g1 g2 hd1 hnt hk hrun
  rw [hv] at hne
  refine ⟨hne, ?_⟩
  intro h s rest hb hcon
  rw [hp] at hb
  have hh := hhead h s rest hb
  apply hne
  subst hh
  obtain ⟨sx, sy⟩ := s
  simp only [Point.Transform, Point.mk.injEq] at hcon
  have e1 : g2.snake.vector.x = -g.snake.vector.x := by omega
  have e2 : g2.snake.vector.y = -g.snake.vector.y := by omega
  cases hvec : g2.snake.vector with
  | mk vx vy =>
    rw [hvec] at e1 e2
    simp only at e1 e2
    simp [Vector.opposite, e1, e2]

/-- C6, amended, on `demoGame`: after the eating tick and the single key
ArrowUp the direction is `Up`, not `Left`. -/
theorem no_reversal_single_key_witness :
    (Reachable demoGame ∧ enabled demoGame (.tick [(3, 3)]) = true ∧
      handle demoGame (.tick [(3, 3)]) = .ok demoEaten ∧
      (∀ e ∈ [Event.key Key.ArrowUp], e.isTick = false) ∧
      (([Event.key Key.ArrowUp]).filter Event.isKey).length ≤ 1 ∧
      run demoEaten [.key .ArrowUp] =
        some { demoEaten with snake := { demoEaten.snake with vector := Up }, vector := Up }) ∧
    (Up ≠ demoGame.snake.vector.opposite ∧
      ∀ (h s : Point) (rest : List Point), [Point.mk 4 4, Point.mk 3 4] = h :: s :: rest →
        h.Transform Up ≠ s) :=
  ⟨⟨reachable_demoGame, by decide, by decide, by decide, by decide, by decide⟩,
    no_reversal_single_key demoGame reachable_demoGame [(3, 3)] demoEaten (by decide)
      (by decide) [.key .ArrowUp] (by decide) (by decide)
      { demoEaten with snake := { demoEaten.snake with vector := Up }, vector := Up }
      (by decide)⟩

/-! ## Score -/

theorem eatsOn_tick_cons (g : Game) (draws : List (Nat × Nat)) (h : Point) (t : List Point)
    (hb : g.snake.points = h :: t) :
    eatsOn g (.tick draws) = decide (g.food.point = h.Transform g.snake.vector) := by
  unfold eatsOn
  rw [canEat_cons g.snake g.food h t hb]
  by_cases e : g.food.point = h.Transform g.snake.vector <;> simp [e]

theorem handle_score (g : Game) (e : Event) (g1 : Game) (h : handle g e = .ok g1) :
    g1.scores.num = g.scores.num + (if eatsOn g e = true then 1 else 0) ∧
      g1.scores.cursor = g.scores.cursor ∧ g1.scores.color = g.scores.color := by
  cases e with
  | key k =>
    simp only [handle, Outcome.ok.injEq] at h
    subst h
    cases k <;> simp [mainKey, eatsOn]
  | other =>
    simp only [handle, Outcome.ok.injEq] at h
    subst h
    simp [eatsOn]
  | tick draws =>
    change mainTick g draws = .ok g1 at h
    cases hb : g.snake.points with
    | nil => rw [mainTick_nil g hb] at h; simp at h
    | cons b0 t =>
      rw [eatsOn_tick_cons g draws b0 t hb]
      rw [mainTick_cons g b0 t hb] at h
      split at h
      · rename_i he
        obtain ⟨food, _, h⟩ := bind_eq_ok _ _ _ h
        simp only [Outcome.ok.injEq] at h
        subst h
        simp [he, Scores.Inc]
      · rename_i he
        split at h <;>
        · simp only [Outcome.ok.injEq] at h
          subst h
          simp [he]

theorem run_score (es : List Event) (g g2 : Game) (h : run g es = some g2) :
    g2.scores.num = g.scores.num + (eatCount g es : Int) := by
  induction es generalizing g with
  | nil =>
    simp only [run, Option.some.injEq] at h
    subst h
    simp [eatCount]
  | cons e es ih =>
    obtain ⟨hen, g1, h1, h2⟩ := run_cons_eq_some g e es g2 h
    have hs := (handle_score g e g1 h1).1
    have hi := ih g1 h2
    unfold eatCount
    rw [if_pos hen, h1]
    simp only
    rw [hi, hs]
    split <;> push_cast <;> ring

theorem run_snoc (es : List Event) (g g1 g2 : Game) (e : Event)
    (hrun : run g es = some g1) (hen : enabled g1 e = true) (hstep : handle g1 e = .ok g2) :
    run g (es ++ [e]) = some g2 := by
  induction es generalizing g with
  | nil =>
    simp only [run, Option.some.injEq] at hrun
    subst hrun
    simp [run, hen, hstep]
  | cons e0 es ih =>
    obtain ⟨hen0, g0, h1, h2⟩ := run_cons_eq_some g e0 es g1 hrun
    have := ih g0 h2
    simp only [List.cons_append, run, hen0, if_true, h1]
    exact this

theorem mainInit_score (capLimit W H : Int) (draws : List (Nat × Nat)) (g0 : Game)
    (h : mainInit capLimit W H draws = .ok g0) : g0.scores = NewScores 4 1 := by
  unfold mainInit at h
  obtain ⟨wall, _, h⟩ := bind_eq_ok _ _ _ h
  obtain ⟨food, _, h⟩ := bind_eq_ok _ _ _ h
  simp only [Outcome.ok.injEq] at h
  subst h
  rfl

/-- C9. `NewScores` creates a counter equal to 0 and `Inc()` adds exactly 1.
In a run of the game loop from the initial state, the score starts at 0; every
transition (key event, other event or tick) leaves it unchanged or larger by
exactly 1, the increase happening exactly on the ticks on which the snake eats
(the projected head equals the food position); so the score never decreases,
and before and after the transition it equals the number of eating ticks of
the run so far. -/
theorem score_spec (capLimit W H : Int) (draws : List (Nat × Nat)) (g0 : Game)
    (es : List Event) (g : Game) (e : Event) (g1 : Game)
    (hinit : mainInit capLimit W H draws = .ok g0) (hrun : run g0 es = some g)
    (hen : enabled g e = true) (hstep : handle g e = .ok g1) :
    (∀ x y : Int, (NewScores x y).num = 0) ∧
      (∀ s : Scores, s.Inc.num = s.num + 1) ∧
      g0.scores.num = 0 ∧
      (g1.scores.num = g.scores.num ∨ g1.scores.num = g.scores.num + 1) ∧
      (g1.scores.num = g.scores.num + 1 ↔ eatsOn g e = true) ∧
      (eatsOn g e = true ↔
        ∃ (d : List (Nat × Nat)) (h : Point) (t : List Point),
          e = .tick d ∧ g.snake.points = h :: t ∧
            Point.mk (h.x + g.snake.vector.x) (h.y + g.snake.vector.y) = g.food.point) ∧
      g.scores.num ≤ g1.scores.num ∧
      g.scores.num = (eatCount g0 es : Int) ∧
      g1.scores.num = (eatCount g0 (es ++ [e]) : Int) := by
  have h0 : g0.scores.num = 0 := by rw [mainInit_score capLimit W H draws g0 hinit]; rfl
  have hs := (handle_score g e g1 hstep).1
  have hr := run_score es g0 g hrun
  have hr1 := run_score (es ++ [e]) g0 g1 (run_snoc es g0 g g1 e hrun hen hstep)
  have hg : g.snake.points ≠ [] := (inv_run es g0 g (inv_mainInit capLimit W H draws g0 hinit) hrun).2.1
  obtain ⟨b0, t, hb⟩ := List.exists_cons_of_ne_nil hg
  refine ⟨fun _ _ => rfl, fun _ => rfl, h0, ?_, ?_, ?_, ?_, ?_, ?_⟩
  · rw [hs]; split <;> simp
  · rw [hs]; split <;> simp [*]
  · constructor
    · intro he
      cases e with
      | key k => simp [eatsOn] at he
      | other => simp [eatsOn] at he
      | tick d =>
        rw [eatsOn_tick_cons g d b0 t hb] at he
        simp only [decide_eq_true_eq] at he
        exact ⟨d, b0, t, rfl, hb, he.symm⟩
    · rintro ⟨d, h, t1, rfl, hb1, he⟩
      rw [eatsOn_tick_cons g d h t1 hb1]
      simp only [decide_eq_true_eq]
      exact he.symm
  · rw [hs]; split <;> simp
  · rw [hr, h0]; simp
  · rw [hr1, h0]; simp

/-- C9 on the first tick of `demoGame`: the snake eats and the score goes from
0 to 1. -/
theorem score_spec_witness :
    (mainInit maxPointCap 40 12 [(1, 1)] = .ok demoGame ∧ run demoGame [] = some demoGame ∧
      enabled demoGame (.tick [(3, 3)]) = true ∧
      handle demoGame (.tick [(3, 3)]) = .ok demoEaten) ∧
    ((∀ x y : Int, (NewScores x y).num = 0) ∧
      (∀ s : Scores, s.Inc.num = s.num + 1) ∧
      demoGame.scores.num = 0 ∧
      (demoEaten.scores.num = demoGame.scores.num ∨
        demoEaten.scores.num = demoGame.scores.num + 1) ∧
      (demoEaten.scores.num = demoGame.scores.num + 1 ↔
        eatsOn demoGame (.tick [(3, 3)]) = true) ∧
      (eatsOn demoGame (.tick [(3, 3)]) = true ↔
        ∃ (d : List (Nat × Nat)) (h : Point) (t : List Point),
          Event.tick [(3, 3)] = .tick d ∧ demoGame.snake.points = h :: t ∧
            Point.mk (h.x + demoGame.snake.vector.x) (h.y + demoGame.snake.vector.y)
              = demoGame.food.point) ∧
      demoGame.scores.num ≤ demoEaten.scores.num ∧
      demoGame.scores.num = (eatCount demoGame [] : Int) ∧
      demoEaten.scores.num = (eatCount demoGame ([] ++ [Event.tick [(3, 3)]]) : Int)) :=
  ⟨⟨by decide, rfl, by decide, by decide⟩,
    score_spec maxPointCap 40 12 [(1, 1)] demoGame [] demoGame (.tick [(3, 3)]) demoEaten
      (by decide) rfl (by decide) (by decide)⟩

/-! ## The pending direction -/

theorem SetVector_accept_or_refuse (s : Snake) (v : Vector) :
    (s.SetVector v).vector = v ∨
      ((s.SetVector v).vector = s.vector ∧ (v = ⟨0, 0⟩ ∨ v = s.vector.opposite)) := by
  obtain ⟨c, b, ⟨dx, dy⟩⟩ := s
  obtain ⟨vx, vy⟩ := v
  unfold Snake.SetVector VcIsZero VcAdd Vector.opposite
  by_cases h1 : vx = 0 ∧ vy = 0
  · right
    simp [h1]
  · by_cases h2 : dx + vx = 0 ∧ dy + vy = 0
    · right
      refine ⟨by simp [h2], Or.inr ?_⟩
      simp only [Vector.mk.injEq]
      omega
    · left
      have e1 : (vx == 0 && vy == 0) = false := by simpa using h1
      have e2 : (dx + vx == 0 && dy + vy == 0) = false := by simpa using h2
      simp [e1, e2]

theorem SetVector_pending (s : Snake) (v : Vector)
    (h : v = s.vector ∨ v = s.vector.opposite) : (s.SetVector v).vector = s.vector := by
  rcases h with h | h
  · rcases SetVector_vector_cases s v with h1 | h1
    · exact h1
    · rw [h1.1, h]
  · obtain ⟨c, b, ⟨dx, dy⟩⟩ := s
    obtain ⟨vx, vy⟩ := v
    simp only [Vector.opposite, Vector.mk.injEq] at h
    unfold Snake.SetVector VcIsZero VcAdd
    have e2 : (dx + vx == 0 && dy + vy == 0) = true := by
      simp only [Bool.and_eq_true, beq_iff_eq]
      omega
    simp [e2]

theorem pinv_mainKey (g : Game) (k : Key) (hg : g.PendingInv) : (mainKey g k).PendingInv := by
  have harrow : ∀ v : Vector, v ≠ ⟨0, 0⟩ →
      v = (g.snake.SetVector v).vector ∨ v = (g.snake.SetVector v).vector.opposite := by
    intro v hv
    rcases SetVector_accept_or_refuse g.snake v with h | h
    · exact Or.inl h.symm
    · right
      rw [h.1]
      rcases h.2 with h2 | h2
      · exact absurd h2 hv
      · exact h2
  cases k with
  | Esc => exact hg
  | ArrowUp => exact harrow Up (by decide)
  | ArrowDown => exact harrow Down (by decide)
  | ArrowLeft => exact harrow Left (by decide)
  | ArrowRight => exact harrow Right (by decide)
  | Other c =>
    show g.vector = (g.snake.SetVector g.vector).vector ∨
      g.vector = (g.snake.SetVector g.vector).vector.opposite
    rw [SetVector_pending g.snake g.vector hg]
    exact hg

theorem mainTick_frame (g : Game) (draws : List (Nat × Nat)) (g1 : Game)
    (ht : mainTick g draws = .ok g1) :
    g1.vector = g.vector ∧ g1.exited = g.exited ∧ g1.wall = g.wall ∧
      g1.snake.vector = g.snake.vector := by
  cases hb : g.snake.points with
  | nil => rw [mainTick_nil g hb] at ht; simp at ht
  | cons b0 t =>
    rw [mainTick_cons g b0 t hb] at ht
    split at ht
    · obtain ⟨food, _, ht⟩ := bind_eq_ok _ _ _ ht
      simp only [Outcome.ok.injEq] at ht
      subst ht
      exact ⟨rfl, rfl, rfl, rfl⟩
    · split at ht <;>
      · simp only [Outcome.ok.injEq] at ht
        subst ht
        exact ⟨rfl, rfl, rfl, rfl⟩

theorem pinv_handle (g : Game) (e : Event) (g1 : Game) (hg : g.PendingInv)
    (h : handle g e = .ok g1) : g1.PendingInv := by
  cases e with
  | key k =>
    simp only [handle, Outcome.ok.injEq] at h
    subst h
    exact pinv_mainKey g k hg
  | other =>
    simp only [handle, Outcome.ok.injEq] at h
    subst h
    exact hg
  | tick draws =>
    obtain ⟨h1, _, _, h2⟩ := mainTick_frame g draws g1 h
    unfold Game.PendingInv
    rw [h1, h2]
    exact hg

theorem pinv_mainInit (capLimit W H : Int) (draws : List (Nat × Nat)) (g0 : Game)
    (h : mainInit capLimit W H draws = .ok g0) : g0.PendingInv := by
  unfold mainInit at h
  obtain ⟨wall, _, h⟩ := bind_eq_ok _ _ _ h
  obtain ⟨food, _, h⟩ := bind_eq_ok _ _ _ h
  simp only [Outcome.ok.injEq] at h
  subst h
  exact Or.inl rfl

theorem pinv_run (es : List Event) (g g2 : Game) (hg : g.PendingInv)
    (h : run g es = some g2) : g2.PendingInv := by
  induction es generalizing g with
  | nil =>
    simp only [run, Option.some.injEq] at h
    subst h
    exact hg
  | cons e es ih =>
    obtain ⟨_, g1, h1, h2⟩ := run_cons_eq_some g e es g2 h
    exact ih g1 (pinv_handle g e g1 hg h1) h2

theorem pinv_of_reachable (g : Game) (h : Reachable g) : g.PendingInv := by
  obtain ⟨capLimit, W, H, draws, g0, es, h0, hrun⟩ := h
  exact pinv_run es g0 g (pinv_mainInit capLimit W H draws g0 h0) hrun

/-! ## GameOver -/

theorem mainKey_board (g : Game) (k : Key) :
    (mainKey g k).snake.points = g.snake.points ∧ (mainKey g k).snake.color = g.snake.color ∧
      (mainKey g k).food = g.food ∧ (mainKey g k).scores = g.scores ∧
      (mainKey g k).wall = g.wall ∧ (mainKey g k).tickerStopped = g.tickerStopped := by
  cases k <;> simp [mainKey, SetVector_points, SetVector_color]

theorem stopped_run (es : List Event) (g g2 : Game) (hs : g.tickerStopped = true)
    (hg : g.PendingInv) (h : run g es = some g2) :
    (g2.snake.points = g.snake.points ∧ g2.snake.color = g.snake.color ∧
      g2.food = g.food ∧ g2.scores = g.scores ∧ g2.wall = g.wall ∧
      g2.tickerStopped = true) ∧
    (∀ e ∈ es, e.isTick = false) ∧
    (g2.exited = true → g.exited = true ∨ Event.key Key.Esc ∈ es) ∧
    ((∀ e ∈ es, e.isArrow = false) → g2.snake.vector = g.snake.vector) := by
  induction es generalizing g with
  | nil =>
    simp only [run, Option.some.injEq] at h
    subst h
    simp [hs]
  | cons e es ih =>
    obtain ⟨hen, g1, h1, h2⟩ := run_cons_eq_some g e es g2 h
    cases e with
    | tick d =>
      rw [enabled_tick_iff] at hen
      rw [hs] at hen
      simp at hen
    | other =>
      simp only [handle, Outcome.ok.injEq] at h1
      subst h1
      obtain ⟨ha, hb, hc, hd⟩ := ih _ hs hg h2
      refine ⟨ha, ?_, ?_, ?_⟩
      · intro e he
        rcases List.mem_cons.1 he with rfl | he
        · rfl
        · exact hb e he
      · intro hx
        rcases hc hx with h | h
        · exact Or.inl h
        · exact Or.inr (List.mem_cons_of_mem _ h)
      · intro hx
        exact hd (fun e he => hx e (List.mem_cons_of_mem _ he))
    | key k =>
      simp only [handle, Outcome.ok.injEq] at h1
      subst h1
      obtain ⟨b1, b2, b3, b4, b5, b6⟩ := mainKey_board g k
      obtain ⟨ha, hb, hc, hd⟩ := ih _ (b6.trans hs) (pinv_mainKey g k hg) h2
      refine ⟨?_, ?_, ?_, ?_⟩
      · obtain ⟨a1, a2, a3, a4, a5, a6⟩ := ha
        exact ⟨a1.trans b1, a2.trans b2, a3.trans b3, a4.trans b4, a5.trans b5, a6⟩
      · intro e he
        rcases List.mem_cons.1 he with rfl | he
        · rfl
        · exact hb e he
      · intro hx
        rcases hc hx with h | h
        · cases k with
          | Esc => exact Or.inr (List.mem_cons_self _ _)
          | ArrowUp => exact Or.inl h
          | ArrowDown => exact Or.inl h
          | ArrowLeft => exact Or.inl h
          | ArrowRight => exact Or.inl h
          | Other c => exact Or.inl h
        · exact Or.inr (List.mem_cons_of_mem _ h)
      · intro hx
        rw [hd (fun e he => hx e (List.mem_cons_of_mem _ he))]
        have hk := hx (.key k) (List.mem_cons_self _ _)
        cases k with
        | Esc => rfl
        | ArrowUp => simp [Event.isArrow] at hk
        | ArrowDown => simp [Event.isArrow] at hk
        | ArrowLeft => simp [Event.isArrow] at hk
        | ArrowRight => simp [Event.isArrow] at hk
        | Other c => exact SetVector_pending g.snake g.vector hg

/-- C10. Once a tick, received in a reachable state, has put the game in
GameOver, every schedule of later events that the loop serves contains no tick
and changes neither the body of the snake, its colour, the food, the score,
the wall nor the stopped ticker; the game stays in GameOver.  The loop is left
only if the schedule contains the key Esc, and the direction of the snake
changes only if the schedule contains an arrow key. -/
theorem gameOver_terminal (g : Game) (hr : Reachable g) (draws : List (Nat × Nat))
    (g1 : Game) (hen : enabled g (.tick draws) = true)
    (ht : handle g (.tick draws) = .ok g1) (hover : g1.GameOver = true)
    (es : List Event) (g2 : Game) (hrun : run g1 es = some g2) :
    g2.snake.points = g1.snake.points ∧ g2.food = g1.food ∧ g2.scores = g1.scores ∧
      g2.wall = g1.wall ∧ g2.snake.color = g1.snake.color ∧ g2.GameOver = true ∧
      (∀ e ∈ es, e.isTick = false) ∧
      (g2.exited = true → Event.key Key.Esc ∈ es) ∧
      ((∀ e ∈ es, e.isArrow = false) → g2.snake.vector = g1.snake.vector) := by
  have hp1 : g1.PendingInv := pinv_handle g _ g1 (pinv_of_reachable g hr) ht
  have hs : g1.tickerStopped = true := by
    simp only [Game.GameOver, Bool.and_eq_true] at hover
    exact hover.2
  have hred : g1.snake.color = .ColorRed := by
    simp only [Game.GameOver, Bool.and_eq_true, decide_eq_true_eq] at hover
    exact hover.1
  have hex : g1.exited = false := by
    rw [(mainTick_frame g draws g1 ht).2.1]
    exact ((enabled_tick_iff g draws).1 hen).1
  obtain ⟨⟨a1, a2, a3, a4, a5, a6⟩, hb, hc, hd⟩ := stopped_run es g1 g2 hs hp1 hrun
  refine ⟨a1, a3, a4, a5, a2, ?_, hb, ?_, hd⟩
  · simp [Game.GameOver, a2, hred, a6]
  · intro hx
    rcases hc hx with h | h
    · rw [hex] at h; simp at h
    · exact h

/-- C10 on the state `demoOver`, which the tick of `demoNearWall` put in
GameOver: the keys ArrowLeft, an unmapped key and Esc, with another terminal
event in between, only turn the direction and leave the loop. -/
theorem gameOver_terminal_witness :
    (Reachable demoNearWall ∧ enabled demoNearWall (.tick []) = true ∧
      handle demoNearWall (.tick []) = .ok demoOver ∧ demoOver.GameOver = true ∧
      run demoOver [.key .ArrowLeft, .other, .key (.Other 97), .key .Esc] = some demoQuit) ∧
    (demoQuit.snake.points = demoOver.snake.points ∧ demoQuit.food = demoOver.food ∧
      demoQuit.scores = demoOver.scores ∧ demoQuit.wall = demoOver.wall ∧
      demoQuit.snake.color = demoOver.snake.color ∧ demoQuit.GameOver = true ∧
      (∀ e ∈ [Event.key Key.ArrowLeft, Event.other, Event.key (Key.Other 97),
          Event.key Key.Esc], e.isTick = false) ∧
      (demoQuit.exited = true →
        Event.key Key.Esc ∈ [Event.key Key.ArrowLeft, Event.other, Event.key (Key.Other 97),
          Event.key Key.Esc]) ∧
      ((∀ e ∈ [Event.key Key.ArrowLeft, Event.other, Event.key (Key.Other 97),
          Event.key Key.Esc], e.isArrow = false) →
        demoQuit.snake.vector = demoOver.snake.vector)) :=
  ⟨⟨reachable_demoNearWall, by decide, by decide, by decide, by decide⟩,
    gameOver_terminal demoNearWall reachable_demoNearWall [] demoOver (by decide) (by decide)
      (by decide) [.key .ArrowLeft, .other, .key (.Other 97), .key .Esc] demoQuit (by decide)⟩

/-! ## Direction and food invariants -/

theorem reachable_demoRefused : Reachable demoRefused :=
  ⟨maxPointCap, 40, 12, [(1, 1)], demoGame, [.key .ArrowLeft], by decide, by decide⟩

theorem reachable_demoEaten : Reachable demoEaten :=
  ⟨maxPointCap, 40, 12, [(1, 1)], demoGame, [.tick [(3, 3)]], by decide, by decide⟩

/-- C12. In every state reachable in the game loop the direction of the snake
is one of the four unit vectors `Up` (0,-1), `Down` (0,1), `Left` (-1,0),
`Right` (1,0); in particular it is not the zero vector. -/
theorem direction_unit (g : Game) (hr : Reachable g) :
    (g.snake.vector = Up ∨ g.snake.vector = Down ∨ g.snake.vector = Left ∨
        g.snake.vector = Right) ∧
      g.snake.vector ∈ [Vector.mk 0 (-1), Vector.mk 0 1, Vector.mk (-1) 0, Vector.mk 1 0] ∧
      g.snake.vector ≠ ⟨0, 0⟩ ∧ VcIsZero g.snake.vector = false := by
  have h := (inv_of_reachable g hr).2.2.1
  have h1 : g.snake.vector = Up ∨ g.snake.vector = Down ∨ g.snake.vector = Left ∨
      g.snake.vector = Right := by
    simpa [unitVectors] using h
  refine ⟨h1, h, ?_, ?_⟩
  · rcases h1 with e | e | e | e <;> rw [e] <;> decide
  · rcases h1 with e | e | e | e <;> rw [e] <;> decide

/-- C12 on the state `demoTurned`, reached by an eating tick and the keys
ArrowUp and ArrowLeft: the direction is `Left`. -/
theorem direction_unit_witness :
    Reachable demoTurned ∧
    ((demoTurned.snake.vector = Up ∨ demoTurned.snake.vector = Down ∨
        demoTurned.snake.vector = Left ∨ demoTurned.snake.vector = Right) ∧
      demoTurned.snake.vector ∈
        [Vector.mk 0 (-1), Vector.mk 0 1, Vector.mk (-1) 0, Vector.mk 1 0] ∧
      demoTurned.snake.vector ≠ ⟨0, 0⟩ ∧ VcIsZero demoTurned.snake.vector = false) :=
  ⟨⟨maxPointCap, 40, 12, [(1, 1)], demoGame, [.tick [(3, 3)], .key .ArrowUp, .key .ArrowLeft],
      by decide, by decide⟩,
    direction_unit demoTurned
      ⟨maxPointCap, 40, 12, [(1, 1)], demoGame, [.tick [(3, 3)], .key .ArrowUp, .key .ArrowLeft],
        by decide, by decide⟩⟩

theorem SetVector_eq_self (s : Snake) (v : Vector)
    (h : v = s.vector ∨ v = s.vector.opposite) : s.SetVector v = s := by
  have h1 := SetVector_pending s v h
  have h2 := SetVector_points s v
  have h3 := SetVector_color s v
  cases hs : s.SetVector v with
  | mk c b d =>
    rw [hs] at h1 h2 h3
    simp only at h1 h2 h3
    subst h1 h2 h3
    rfl

/-- C13. In every state reachable in the game loop, a key-press event whose
key is none of the four arrows and Esc returns normally and leaves the whole
state unchanged, in particular the direction and the body of the snake, the
food and the score; the call `SetVector` of the handler, with the pending
direction, has no effect. -/
theorem other_key_ignored (g : Game) (hr : Reachable g) (code : Nat) :
    handle g (.key (.Other code)) = .ok g ∧
      (g.snake.SetVector g.vector).vector = g.snake.vector ∧
      (mainKey g (.Other code)).snake.vector = g.snake.vector ∧
      (mainKey g (.Other code)).snake.points = g.snake.points ∧
      (mainKey g (.Other code)).food = g.food ∧
      (mainKey g (.Other code)).scores = g.scores := by
  have hp := pinv_of_reachable g hr
  have hs : g.snake.SetVector g.vector = g.snake := SetVector_eq_self g.snake g.vector hp
  have hk : mainKey g (.Other code) = g := by
    show { g with snake := g.snake.SetVector g.vector } = g
    rw [hs]
  refine ⟨?_, by rw [hs], by rw [hk], by rw [hk], by rw [hk], by rw [hk]⟩
  show Outcome.ok (mainKey g (.Other code)) = .ok g
  rw [hk]

/-- C13 on the state `demoRefused`, in which the pending direction `Left` was
refused before: the unmapped key 97 calls `SetVector Left` again and changes
nothing. -/
theorem other_key_ignored_witness :
    Reachable demoRefused ∧
    (handle demoRefused (.key (.Other 97)) = .ok demoRefused ∧
      (demoRefused.snake.SetVector demoRefused.vector).vector = demoRefused.snake.vector ∧
      (mainKey demoRefused (.Other 97)).snake.vector = demoRefused.snake.vector ∧
      (mainKey demoRefused (.Other 97)).snake.points = demoRefused.snake.points ∧
      (mainKey demoRefused (.Other 97)).food = demoRefused.food ∧
      (mainKey demoRefused (.Other 97)).scores = demoRefused.scores) :=
  ⟨reachable_demoRefused, other_key_ignored demoRefused reachable_demoRefused 97⟩

/-- C17. In every state reachable from the initial state, whatever the events
and the random draws, the food lies strictly inside the wall rectangle, is
not a point of the wall and is not a segment of the body of the snake. -/
theorem food_invariant (g : Game) (hr : Reachable g) :
    g.wall.P1.x < g.food.point.x ∧ g.food.point.x < g.wall.P2.x ∧
      g.wall.P1.y < g.food.point.y ∧ g.food.point.y < g.wall.P2.y ∧
      g.food.point ∉ g.wall.Points ∧ g.food.point ∉ g.snake.Points ∧
      intersect g.food.point g.wall.Points = false ∧
      intersect g.food.point g.snake.Points = false := by
  obtain ⟨h1, _, _, _, h5, h6, h7, h8, h9⟩ := inv_of_reachable g hr
  have hw : g.food.point ∉ g.wall.Points := by
    show g.food.point ∉ g.wall.points
    rw [h1, mem_wallLoop]
    omega
  exact ⟨h6, h7, h8, h9, hw, h5, (intersect_eq_false_iff _ _).2 hw,
    (intersect_eq_false_iff _ _).2 h5⟩

/-- C17 on the state `demoEaten`: after the eating tick the food is at (6,6),
inside the wall (2,2)-(7,9) and off the body `[(4,4),(3,4)]`. -/
theorem food_invariant_witness :
    Reachable demoEaten ∧
    (demoEaten.wall.P1.x < demoEaten.food.point.x ∧
      demoEaten.food.point.x < demoEaten.wall.P2.x ∧
      demoEaten.wall.P1.y < demoEaten.food.point.y ∧
      demoEaten.food.point.y < demoEaten.wall.P2.y ∧
      demoEaten.food.point ∉ demoEaten.wall.Points ∧
      demoEaten.food.point ∉ demoEaten.snake.Points ∧
      intersect demoEaten.food.point demoEaten.wall.Points = false ∧
      intersect demoEaten.food.point demoEaten.snake.Points = false) :=
  ⟨reachable_demoEaten, food_invariant demoEaten reachable_demoEaten⟩

/-! ## Vector comparison -/

/-- C15, evaluated on the code.  `VcEqual` as written compares both fields of
`v0` with `v1.y`: it returns true exactly when `v0.x = v1.y` and
`v0.y = v1.y`.  It therefore returns false on `(d, d)` for each of the four
unit directions `d`, and true on the unequal vectors `(0,0)` and `(5,0)`. -/
theorem VcEqual_source :
    (∀ v0 v1 : Vector, VcEqual v0 v1 = true ↔ (v0.x = v1.y ∧ v0.y = v1.y)) ∧
      VcEqual Up Up = false ∧ VcEqual Down Down = false ∧
      VcEqual Left Left = false ∧ VcEqual Right Right = false ∧
      VcEqual ⟨0, 0⟩ ⟨5, 0⟩ = true := by
  refine ⟨?_, by decide, by decide, by decide, by decide, by decide⟩
  intro v0 v1
  simp [VcEqual]

/-! ## Food placement on a full board -/

/-- C16. For corners with `p2.x - p1.x >= 2` and `p2.y - p1.y >= 2` and an
exclusion list that contains every interior point, `randomFood` returns for
no sequence of random draws: whatever the draws, every candidate is rejected
and after all of them the loop is still running (no result and no panic). -/
theorem randomFood_full_board (p1 p2 : Point) (hx : p2.x - p1.x ≥ 2) (hy : p2.y - p1.y ≥ 2)
    (excludes : List Point)
    (hfull : ∀ x y : Int, p1.x < x → x < p2.x → p1.y < y → y < p2.y →
      Point.mk x y ∈ excludes)
    (draws : List (Nat × Nat)) :
    randomFood p1 p2 excludes draws = .pending ∧
      ∀ f : Food, randomFood p1 p2 excludes draws ≠ .ok f := by
  have hp : randomFood p1 p2 excludes draws = .pending := by
    induction draws with
    | nil => rfl
    | cons d rest ih =>
      obtain ⟨r1, r2⟩ := d
      unfold randomFood
      have n1 : ¬ (p2.x - p1.x - 1 ≤ 0) := by omega
      have n2 : ¬ (p2.y - p1.y - 1 ≤ 0) := by omega
      have ha : Intn (p2.x - p1.x - 1) r1 = .ok ((r1 : Int) % (p2.x - p1.x - 1)) := by
        unfold Intn; rw [if_neg n1]
      have hb : Intn (p2.y - p1.y - 1) r2 = .ok ((r2 : Int) % (p2.y - p1.y - 1)) := by
        unfold Intn; rw [if_neg n2]
      have a1 := Intn_ok _ _ _ ha
      have b1 := Intn_ok _ _ _ hb
      have hm : intersect ⟨(r1 : Int) % (p2.x - p1.x - 1) + p1.x + 1,
          (r2 : Int) % (p2.y - p1.y - 1) + p1.y + 1⟩ excludes = true := by
        rw [intersect_eq_true_iff]
        apply hfull <;> omega
      simp only [ha, hb, hm, Bool.not_true, Bool.false_eq_true, if_false]
      exact ih
  refine ⟨hp, ?_⟩
  intro f
  rw [hp]
  simp

/-- C16 on the corners (2,2)-(4,4), whose only interior cell (3,3) is
excluded. -/
theorem randomFood_full_board_witness :
    (((4 : Int) - 2 ≥ 2 ∧ (4 : Int) - 2 ≥ 2) ∧
      (∀ x y : Int, (2 : Int) < x → x < 4 → (2 : Int) < y → y < 4 →
        Point.mk x y ∈ [Point.mk 3 3])) ∧
    (randomFood ⟨2, 2⟩ ⟨4, 4⟩ [⟨3, 3⟩] [(0, 0), (5, 7)] = .pending ∧
      ∀ f : Food, randomFood ⟨2, 2⟩ ⟨4, 4⟩ [⟨3, 3⟩] [(0, 0), (5, 7)] ≠ .ok f) :=
  ⟨⟨⟨by decide, by decide⟩, fun x y h1 h2 h3 h4 => by
      have ex : x = 3 := by omega
      have ey : y = 3 := by omega
      subst ex ey
      simp⟩,
    randomFood_full_board ⟨2, 2⟩ ⟨4, 4⟩ (by decide) (by decide) [⟨3, 3⟩]
      (fun x y h1 h2 h3 h4 => by
        simp only at h1 h2 h3 h4
        have ex : x = 3 := by omega
        have ey : y = 3 := by omega
        subst ex ey
        simp)
      [(0, 0), (5, 7)]⟩

/-! ## The body of the snake -/

theorem contiguous_dropLast (l : List Point) (h : contiguous l) : contiguous l.dropLast := by
  induction l with
  | nil => exact h
  | cons a l ih =>
    cases l with
    | nil => trivial
    | cons b l =>
      cases l with
      | nil => trivial
      | cons c l =>
        obtain ⟨h1, h2⟩ := h
        exact ⟨h1, ih h2⟩

theorem adjacent_transform (b0 : Point) (v : Vector) (hv : v ∈ unitVectors) :
    adjacent (b0.Transform v) b0 := by
  obtain ⟨vx, vy⟩ := v
  unfold adjacent Point.Transform
  have e1 : b0.x + vx - b0.x = vx := by omega
  have e2 : b0.y + vy - b0.y = vy := by omega
  simp only [e1, e2]
  exact hv

theorem contiguous_eat (b0 : Point) (t : List Point) (v : Vector) (hv : v ∈ unitVectors)
    (h : contiguous (b0 :: t)) : contiguous (b0.Transform v :: b0 :: t) :=
  ⟨adjacent_transform b0 v hv, h⟩

theorem contiguous_step (b0 : Point) (t : List Point) (v : Vector) (hv : v ∈ unitVectors)
    (h : contiguous (b0 :: t)) : contiguous (b0.Transform v :: (b0 :: t).dropLast) := by
  cases t with
  | nil => trivial
  | cons t0 t1 =>
    have hd := contiguous_dropLast _ h
    rw [List.dropLast_cons₂] at hd ⊢
    exact ⟨adjacent_transform b0 v hv, hd⟩

theorem contiguous_get (l : List Point) (h : contiguous l) (i : Nat) (a b : Point)
    (ha : l[i]? = some a) (hb : l[i + 1]? = some b) : adjacent a b := by
  induction l generalizing i with
  | nil => simp at ha
  | cons c l ih =>
    cases l with
    | nil => simp at hb
    | cons d l =>
      obtain ⟨h1, h2⟩ := h
      cases i with
      | zero =>
        simp only [List.getElem?_cons_zero, Option.some.injEq, zero_add,
          List.getElem?_cons_succ] at ha hb
        subst ha hb
        exact h1
      | succ i =>
        rw [List.getElem?_cons_succ] at ha hb
        exact ih h2 i ha hb

theorem binv_mainInit (capLimit W H : Int) (draws : List (Nat × Nat)) (g0 : Game)
    (h : mainInit capLimit W H draws = .ok g0) : g0.BodyInv := by
  unfold mainInit at h
  obtain ⟨wall, _, h⟩ := bind_eq_ok _ _ _ h
  obtain ⟨food, _, h⟩ := bind_eq_ok _ _ _ h
  simp only [Outcome.ok.injEq] at h
  subst h
  refine ⟨by simp, fun _ => by simp [NewSnake], by simp [NewSnake, contiguous], ?_⟩
  simp [NewSnake, NewScores]

theorem binv_mainKey (g : Game) (k : Key) (hb : g.BodyInv) : (mainKey g k).BodyInv := by
  obtain ⟨b1, b2, _, b4, _, b6⟩ := mainKey_board g k
  unfold Game.BodyInv
  rw [b1, b2, b4, b6]
  exact hb

theorem binv_mainTick (g : Game) (draws : List (Nat × Nat)) (g1 : Game) (hg : g.Inv)
    (hb : g.BodyInv) (ht : mainTick g draws = .ok g1) : g1.BodyInv := by
  obtain ⟨_, h2, h3, _, h5, _⟩ := hg
  obtain ⟨c1, c2, c3, c4⟩ := hb
  obtain ⟨b0, t, hbody⟩ := List.exists_cons_of_ne_nil h2
  rw [hbody] at c2 c3 c4 h5
  rw [mainTick_cons g b0 t hbody] at ht
  have hlen : (((b0.Transform g.snake.vector :: (b0 :: t).dropLast).length : Nat) : Int)
      = ((b0 :: t).length : Int) := by
    simp
  split at ht
  · rename_i he
    obtain ⟨food, _, ht⟩ := bind_eq_ok _ _ _ ht
    simp only [Outcome.ok.injEq] at ht
    subst ht
    refine ⟨c1, ?_, contiguous_eat b0 t _ h3 c3, ?_⟩
    · intro hs
      show (b0.Transform g.snake.vector :: b0 :: t).Nodup
      rw [List.nodup_cons]
      exact ⟨he ▸ h5, c2 hs⟩
    · show g.scores.num + 1 = ((b0.Transform g.snake.vector :: b0 :: t).length : Int) - 1
      rw [c4]
      simp
  · split at ht
    · simp only [Outcome.ok.injEq] at ht
      subst ht
      refine ⟨fun _ => rfl, ?_, contiguous_step b0 t _ h3 c3, ?_⟩
      · intro hs
        simp at hs
      · show g.scores.num
            = ((b0.Transform g.snake.vector :: (b0 :: t).dropLast).length : Int) - 1
        rw [hlen, c4]
    · rename_i hcol
      simp only [Outcome.ok.injEq] at ht
      subst ht
      refine ⟨c1, ?_, contiguous_step b0 t _ h3 c3, ?_⟩
      · intro hs
        show (b0.Transform g.snake.vector :: (b0 :: t).dropLast).Nodup
        rw [List.nodup_cons]
        simp only [Bool.or_eq_true, intersect_eq_true_iff, not_or] at hcol
        exact ⟨hcol.1, List.Nodup.sublist (List.dropLast_sublist _) (c2 hs)⟩
      · show g.scores.num
            = ((b0.Transform g.snake.vector :: (b0 :: t).dropLast).length : Int) - 1
        rw [hlen, c4]

theorem binv_handle (g : Game) (e : Event) (g1 : Game) (hg : g.Inv) (hb : g.BodyInv)
    (h : handle g e = .ok g1) : g1.BodyInv := by
  cases e with
  | key k =>
    simp only [handle, Outcome.ok.injEq] at h
    subst h
    exact binv_mainKey g k hb
  | other =>
    simp only [handle, Outcome.ok.injEq] at h
    subst h
    exact hb
  | tick draws => exact binv_mainTick g draws g1 hg hb h

theorem binv_run (es : List Event) (g g2 : Game) (hg : g.Inv) (hb : g.BodyInv)
    (h : run g es = some g2) : g2.BodyInv := by
  induction es generalizing g with
  | nil =>
    simp only [run, Option.some.injEq] at h
    subst h
    exact hb
  | cons e es ih =>
    obtain ⟨_, g1, h1, h2⟩ := run_cons_eq_some g e es g2 h
    exact ih g1 (inv_handle g e g1 hg h1) (binv_handle g e g1 hg hb h1) h2

theorem binv_of_reachable (g : Game) (h : Reachable g) : g.BodyInv := by
  obtain ⟨capLimit, W, H, draws, g0, es, h0, hrun⟩ := h
  exact binv_run es g0 g (inv_mainInit capLimit W H draws g0 h0)
    (binv_mainInit capLimit W H draws g0 h0) hrun

/-- C18. In every state reachable in the game loop that is not GameOver, the
points of the body of the snake are pairwise distinct: the list has no
duplicate, and cells at two different indices differ. -/
theorem body_nodup (g : Game) (hr : Reachable g) (hrun : g.GameOver = false) :
    g.snake.points.Nodup ∧
      ∀ (i j : Nat) (a b : Point), i < j → g.snake.points[i]? = some a →
        g.snake.points[j]? = some b → a ≠ b := by
  obtain ⟨c1, c2, _, _⟩ := binv_of_reachable g hr
  have hs : g.tickerStopped = false := by
    cases hst : g.tickerStopped with
    | false => rfl
    | true =>
      have := c1 hst
      simp [Game.GameOver, this, hst] at hrun
  have hn := c2 hs
  refine ⟨hn, ?_⟩
  intro i j a b hij ha hb hab
  subst hab
  obtain ⟨hi, hai⟩ := List.getElem?_eq_some.1 ha
  obtain ⟨hj, hbj⟩ := List.getElem?_eq_some.1 hb
  have := (@List.Nodup.getElem_inj_iff _ _ hn i hi j hj).1 (hai.trans hbj.symm)
  omega

/-- C18 on the state `demoEaten`, which is running and has the body
`[(4,4),(3,4)]`. -/
theorem body_nodup_witness :
    (Reachable demoEaten ∧ demoEaten.GameOver = false) ∧
    (demoEaten.snake.points.Nodup ∧
      ∀ (i j : Nat) (a b : Point), i < j → demoEaten.snake.points[i]? = some a →
        demoEaten.snake.points[j]? = some b → a ≠ b) :=
  ⟨⟨reachable_demoEaten, by decide⟩, body_nodup demoEaten reachable_demoEaten (by decide)⟩

/-- C19. In every state reachable in the game loop, every two consecutive body
segments are grid neighbours: for every index `i` with a segment at `i` and at
`i+1`, `body[i] - body[i+1]` is one of (0,-1), (0,1), (-1,0), (1,0). -/
theorem body_contiguous (g : Game) (hr : Reachable g) :
    ∀ (i : Nat) (a b : Point), g.snake.points[i]? = some a →
      g.snake.points[i + 1]? = some b →
        Vector.mk (a.x - b.x) (a.y - b.y)
          ∈ [Vector.mk 0 (-1), Vector.mk 0 1, Vector.mk (-1) 0, Vector.mk 1 0] := by
  intro i a b ha hb
  exact contiguous_get _ (binv_of_reachable g hr).2.2.1 i a b ha hb

/-- C19 on the state `demoEaten` with the body `[(4,4),(3,4)]`. -/
theorem body_contiguous_witness :
    Reachable demoEaten ∧
    (∀ (i : Nat) (a b : Point), demoEaten.snake.points[i]? = some a →
      demoEaten.snake.points[i + 1]? = some b →
        Vector.mk (a.x - b.x) (a.y - b.y)
          ∈ [Vector.mk 0 (-1), Vector.mk 0 1, Vector.mk (-1) 0, Vector.mk 1 0]) :=
  ⟨reachable_demoEaten, body_contiguous demoEaten reachable_demoEaten⟩

/-- C20. In every state reachable in the game loop the score counter equals
the number of body segments of the snake minus 1. -/
theorem score_length (g : Game) (hr : Reachable g) :
    g.scores.num = (g.snake.points.length : Int) - 1 :=
  (binv_of_reachable g hr).2.2.2

/-- C20 on the state `demoEaten`: score 1, two segments. -/
theorem score_length_witness :
    Reachable demoEaten ∧
      demoEaten.scores.num = (demoEaten.snake.points.length : Int) - 1 :=
  ⟨reachable_demoEaten, score_length demoEaten reachable_demoEaten⟩

/-! ## Absence of index panics -/

theorem applyOp_nonempty (s : Snake) (op : SnakeOp) (hs : s.points ≠ []) :
    ∃ s1, applyOp s op = .ok s1 ∧ s1.points ≠ [] := by
  obtain ⟨h, t, hb⟩ := List.exists_cons_of_ne_nil hs
  cases op with
  | SetVector v => exact ⟨_, rfl, by rw [SetVector_points]; exact hs⟩
  | Step => exact ⟨_, Step_cons s h t hb, by simp⟩
  | Eat => exact ⟨_, Eat_cons s h t hb, by simp⟩

theorem applyOps_nonempty (ops : List SnakeOp) (s : Snake) (hs : s.points ≠ []) :
    ∃ s1, applyOps s ops = .ok s1 ∧ s1.points ≠ [] := by
  induction ops generalizing s with
  | nil => exact ⟨s, rfl, hs⟩
  | cons op ops ih =>
    obtain ⟨s1, h1, hs1⟩ := applyOp_nonempty s op hs
    obtain ⟨s2, h2, hs2⟩ := ih s1 hs1
    refine ⟨s2, ?_, hs2⟩
    unfold applyOps
    rw [h1]
    exact h2

theorem randomFood_ne_panic (p1 p2 : Point) (excludes : List Point)
    (draws : List (Nat × Nat)) (hx : 0 < p2.x - p1.x - 1) (hy : 0 < p2.y - p1.y - 1) :
    randomFood p1 p2 excludes draws ≠ .panic := by
  induction draws with
  | nil => simp [randomFood]
  | cons d rest ih =>
    obtain ⟨r1, r2⟩ := d
    unfold randomFood
    have ha : Intn (p2.x - p1.x - 1) r1 = .ok ((r1 : Int) % (p2.x - p1.x - 1)) := by
      unfold Intn; rw [if_neg (by omega)]
    have hb : Intn (p2.y - p1.y - 1) r2 = .ok ((r2 : Int) % (p2.y - p1.y - 1)) := by
      unfold Intn; rw [if_neg (by omega)]
    simp only [ha, hb]
    split
    · simp
    · exact ih

theorem mainTick_ne_panic (g : Game) (hg : g.Inv) (draws : List (Nat × Nat)) :
    mainTick g draws ≠ .panic ∧
      (canEat g.snake g.food = .ok false → ∃ g1, mainTick g draws = .ok g1) := by
  obtain ⟨_, h2, _, _, _, h6, h7, h8, h9⟩ := hg
  obtain ⟨b0, t, hb⟩ := List.exists_cons_of_ne_nil h2
  rw [mainTick_cons g b0 t hb, canEat_cons g.snake g.food b0 t hb]
  split
  · rename_i he
    constructor
    · intro hp
      have hr := randomFood_ne_panic g.wall.P1 g.wall.P2
        (b0.Transform g.snake.vector :: b0 :: t) draws (by omega) (by omega)
      cases hrf : randomFood g.wall.P1 g.wall.P2
          (b0.Transform g.snake.vector :: b0 :: t) draws with
      | ok f => rw [hrf] at hp; simp [Outcome.bind] at hp
      | panic => exact hr hrf
      | pending => rw [hrf] at hp; simp [Outcome.bind] at hp
    · intro hc
      simp [he] at hc
  · split
    · exact ⟨by simp, fun _ => ⟨_, rfl⟩⟩
    · exact ⟨by simp, fun _ => ⟨_, rfl⟩⟩

/-- C11. Starting from `NewSnake x y`, every finite sequence of `SetVector`
(with arbitrary vectors), `Step` and `Eat` calls returns normally and leaves a
body of length at least 1, on which `Head`, `Step`, `Eat` and `canEat` return
without an index panic.  In every reachable state of the game loop the body
has length at least 1, no round of the loop panics, and a tick on which the
snake does not eat (the tick that may detect a collision, with its slice
`Points()[1:]`) returns a state. -/
theorem body_nonempty (x y : Int) (ops : List SnakeOp) (g : Game) (hr : Reachable g)
    (e : Event) :
    (∃ s : Snake, applyOps (NewSnake x y) ops = .ok s ∧ 1 ≤ s.points.length ∧
      (∃ p, s.Head = .ok p) ∧ (∃ s1, s.Step = .ok s1) ∧ (∃ s1, s.Eat = .ok s1) ∧
      (∀ f : Food, ∃ b, canEat s f = .ok b)) ∧
    1 ≤ g.snake.points.length ∧
    handle g e ≠ .panic ∧
    (∀ draws : List (Nat × Nat), canEat g.snake g.food = .ok false →
      ∃ g1, handle g (.tick draws) = .ok g1) := by
  have hinv := inv_of_reachable g hr
  refine ⟨?_, ?_, ?_, ?_⟩
  · obtain ⟨s, h1, hs⟩ := applyOps_nonempty ops (NewSnake x y) (by simp [NewSnake])
    obtain ⟨h, t, hb⟩ := List.exists_cons_of_ne_nil hs
    refine ⟨s, h1, ?_, ⟨h, ?_⟩, ⟨_, Step_cons s h t hb⟩, ⟨_, Eat_cons s h t hb⟩, ?_⟩
    · rw [hb]; simp
    · unfold Snake.Head; rw [hb]
    · intro f
      exact ⟨_, canEat_cons s f h t hb⟩
  · obtain ⟨h, t, hb⟩ := List.exists_cons_of_ne_nil hinv.2.1
    rw [hb]; simp
  · cases e with
    | key k => simp [handle]
    | other => simp [handle]
    | tick draws => exact (mainTick_ne_panic g hinv draws).1
  · intro draws hc
    exact (mainTick_ne_panic g hinv draws).2 hc

/-- C11 on the calls `Eat`, `SetVector (0,0)`, `Step` from `NewSnake 3 4`, and
on the tick of `demoNearWall` that walks into the wall. -/
theorem body_nonempty_witness :
    Reachable demoNearWall ∧
    ((∃ s : Snake,
        applyOps (NewSnake 3 4) [.Eat, .SetVector ⟨0, 0⟩, .Step] = .ok s ∧
        1 ≤ s.points.length ∧
        (∃ p, s.Head = .ok p) ∧ (∃ s1, s.Step = .ok s1) ∧ (∃ s1, s.Eat = .ok s1) ∧
        (∀ f : Food, ∃ b, canEat s f = .ok b)) ∧
      1 ≤ demoNearWall.snake.points.length ∧
      handle demoNearWall (.tick []) ≠ .panic ∧
      (∀ draws : List (Nat × Nat), canEat demoNearWall.snake demoNearWall.food = .ok false →
        ∃ g1, handle demoNearWall (.tick draws) = .ok g1)) :=
  ⟨reachable_demoNearWall,
    body_nonempty 3 4 [.Eat, .SetVector ⟨0, 0⟩, .Step] demoNearWall reachable_demoNearWall
      (.tick [])⟩

/-! ## Start-up -/

/-- C14, evaluated on the code.  For a terminal of 80 columns and 4 rows the
wall corners are (2,2)-(17,1): `NewWall` returns, and the first iteration of
`randomFood` calls `rand.Intn(1-2-1)`, which panics.  For a terminal of 8
columns and 3 rows the corners are (2,2)-(-1,0), the capacity hint is -2 and
`make` panics in `NewWall`.  In both cases the start-up of `main` panics. -/
theorem startup_panics :
    mainInit maxPointCap 80 4 [(0, 0)] = .panic ∧
      NewWall maxPointCap ⟨2, 2⟩ ⟨17, 1⟩ ≠ .panic ∧
      Intn (1 - 2 - 1) 0 = .panic ∧
      randomFood ⟨2, 2⟩ ⟨17, 1⟩ [⟨8, 0⟩] [(0, 0)] = .panic ∧
      mainInit maxPointCap 8 3 [(0, 0)] = .panic ∧
      NewWall maxPointCap ⟨2, 2⟩ ⟨-1, 0⟩ = .panic ∧
      mainInit maxPointCap 0 0 [(0, 0)] = .panic := by
  refine ⟨by decide, by decide, by decide, by decide, by decide, by decide, by decide⟩

end SnakeGo
